import Mathlib

/-!
Verification of the apportionment engine of `prop_allocate.py`.

The engine works on Python dicts mapping entity names to numeric sizes and
counts.  Python dicts preserve insertion order and have pairwise-distinct
keys, so a mapping is embedded as an association list `List (String × _)`
together with a `Nodup` hypothesis on the keys where a proof needs it.
Float sizes are embedded as rationals (exact arithmetic), Python ints as
`ℤ`, and a raised `ValueError` as `Except.error`.
-/

/-- Decidable equality of embedded results, for concrete evaluations. -/
instance exceptDecEq {ε α : Type} [DecidableEq ε] [DecidableEq α] :
    DecidableEq (Except ε α) := fun x y =>
  match x, y with
  | .error e, .error f =>
      if h : e = f then .isTrue (by rw [h])
      else .isFalse (fun hc => by injection hc; contradiction)
  | .error _, .ok _ => .isFalse (fun hc => by cases hc)
  | .ok _, .error _ => .isFalse (fun hc => by cases hc)
  | .ok a, .ok b =>
      if h : a = b then .isTrue (by rw [h])
      else .isFalse (fun hc => by injection hc; contradiction)

/-- SizeMap embeds the `size : dict[str, float]` argument of the engine. -/
abbrev SizeMap := List (String × ℚ)

/-- Alloc embeds a `Counter[str, int]` allocation (insertion ordered). -/
abbrev Alloc := List (String × ℤ)

/-- Counter-style lookup: a missing key yields 0, as `Counter.__getitem__`. -/
def getv {α : Type} [Zero α] : List (String × α) → String → α
  | [], _ => 0
  | p :: ps, k => if p.1 = k then p.2 else getv ps k

/-- Sum of the values of a mapping, as `sum(m.values())`. -/
def sumv {α : Type} [AddCommMonoid α] (l : List (String × α)) : α :=
  (l.map Prod.snd).sum

/-!
The `Rat` field operations of this toolchain are `@[irreducible]`, which
blocks kernel evaluation of concrete runs.  The engine therefore uses the
following wrappers, each proved equal to the corresponding field operation,
so that abstract proofs can rewrite to ordinary `ℚ` arithmetic while
concrete inputs still evaluate by `decide`.
-/

/-- Computable rational addition. -/
def qadd (a b : ℚ) : ℚ := Rat.divInt (a.num * b.den + b.num * a.den) (a.den * b.den)

/-- Computable rational multiplication. -/
def qmul (a b : ℚ) : ℚ := Rat.divInt (a.num * b.num) (a.den * b.den)

/-- Computable rational subtraction. -/
def qsub (a b : ℚ) : ℚ := Rat.divInt (a.num * b.den - b.num * a.den) (a.den * b.den)

/-- Computable rational division (0 on a zero divisor, as in `ℚ`). -/
def qdiv (a b : ℚ) : ℚ := Rat.divInt (a.num * b.den) (a.den * b.num)

/-- Computable sum of the sizes, as `fsum(size.values())`. -/
def sumq (size : List (String × ℚ)) : ℚ := (size.map Prod.snd).foldr qadd 0


/-- Stable insertion of a keyed rational into a list sorted by value;
building block of the embedding of Python `sorted(d, key=d.get)`. -/
def stableInsert (p : String × ℚ) : List (String × ℚ) → List (String × ℚ)
  | [] => [p]
  | q :: qs => if q.2 < p.2 then q :: stableInsert p qs else p :: q :: qs

/-- Stable sort by value, ascending: embeds `sorted(d, key=d.get)` (CPython
sorted is stable, and dict iteration supplies the keys in insertion order). -/
def sortRem : List (String × ℚ) → List (String × ℚ)
  | [] => []
  | p :: ps => stableInsert p (sortRem ps)

/-- Exact proportional share `n * size[k] / sumx` of an entity of size x. -/
def lrShare (n : ℤ) (sumx x : ℚ) : ℚ := qdiv (qmul (n : ℚ) x) sumx

/-- Floor allocations of `largest_remainder`: entity k gets
`floor(n * size[k] / sumx)`. -/
def lrFloor (size : SizeMap) (n : ℤ) (sumx : ℚ) : Alloc :=
  size.map (fun p => (p.1, ⌊lrShare n sumx p.2⌋))

/-- Remainder table of `largest_remainder`: entity k maps to
`floor(np) - np`, a non-positive ranking value. -/
def lrRem (size : SizeMap) (n : ℤ) (sumx : ℚ) : List (String × ℚ) :=
  size.map (fun p => (p.1, qsub (⌊lrShare n sumx p.2⌋ : ℚ) (lrShare n sumx p.2)))

/-- Keys receiving one extra unit: the `n - total` keys of smallest
remainder, in the stable ascending order of `sorted(remainder, key=...)`. -/
def lrAddOne (size : SizeMap) (n : ℤ) (sumx : ℚ) : List String :=
  ((sortRem (lrRem size n sumx)).map Prod.fst).take (n - sumv (lrFloor size n sumx)).toNat

/-- Successful result of `largest_remainder` once the argument checks have
passed: floors plus one unit for each key listed in `lrAddOne`. -/
def lrResult (size : SizeMap) (n : ℤ) : Alloc :=
  (lrFloor size n (sumq size)).map
    (fun q => (q.1, if q.1 ∈ lrAddOne size n (sumq size) then q.2 + 1 else q.2))

/-- Embedding of `largest_remainder(size, n)` with its three argument
checks, in source order. -/
def largest_remainder (size : SizeMap) (n : ℤ) : Except String Alloc :=
  if n < 0 then .error "n must be positive"
  else if size.any (fun p => decide (p.2 < 0)) then .error "size cannot have negative values"
  else if sumq size = 0 then .error "size cannot have all zeros"
  else .ok (lrResult size n)

/-- Left-biased choice of the larger value, the comparison step of Python
`max`: the current best is replaced only on a strictly greater value. -/
def bestOf (q p : String × ℚ) : String × ℚ := if q.2 < p.2 then p else q

/-- First key-value pair attaining the maximal value, embedding Python
`max(td, key=td.get)` (CPython max keeps the first maximal element). -/
def firstMax : List (String × ℚ) → Option (String × ℚ)
  | [] => none
  | p :: ps => some (ps.foldl bestOf p)

/-- Increment the entry of key k by one, as `res[k] += 1` on a counter
whose keys already contain k. -/
def incKey (k : String) : Alloc → Alloc
  | [] => []
  | p :: ps => if p.1 = k then (p.1, p.2 + 1) :: ps else p :: incKey k ps

/-- Body iteration of `highest_average`: award one unit to the entity with
the highest `size[k] / divisor(res[k])`; an empty table embeds the
`max(())` ValueError of Python. -/
def haLoop (size : SizeMap) (d : ℤ → ℚ) : ℕ → Alloc → Except String Alloc
  | 0, res => .ok res
  | m + 1, res =>
    match firstMax (size.map (fun p => (p.1, qdiv p.2 (d (getv res p.1))))) with
    | none => .error "max arg is an empty sequence"
    | some q => haLoop size d m (incKey q.1 res)

/-- Embedding of `highest_average(size, n, divisor=d)`: argument checks and
then n rounds of awards starting from the all-zero counter. -/
def highest_average (size : SizeMap) (n : ℤ) (d : ℤ → ℚ) : Except String Alloc :=
  if n < 0 then .error "n must be positive"
  else if size.any (fun p => decide (p.2 < 0)) then .error "sizes cannot be negative"
  else haLoop size d n.toNat (size.map (fun p => (p.1, 0)))

/-- Default divisor of `highest_average`: the D-Hondt divisor `x + 1`
(Python returns the integer `x + 1`, embedded into `ℚ`). -/
def dhondt (x : ℤ) : ℚ := ((x + 1 : ℤ) : ℚ)

/-- Charwise embedding of `name.lower()` (the catalog names are ASCII, so
this agrees with the Python method). -/
def lowerName (s : String) : String := String.mk (s.data.map Char.toLower)

/-- Embedding of the divisor catalog `divisor(name)`, with the
case-insensitive name lookup of the source; values are real because the
Huntington-Hill divisor takes a square root. -/
noncomputable def divisorFun (name : String) : Except String (ℤ → ℝ) :=
  if lowerName name = "adams" then .ok (fun x => (x : ℝ))
  else if lowerName name = "dean" then .ok (fun x => (x : ℝ) * (x + 1) / (x + 0.5))
  else if lowerName name = "huntington-hill" then .ok (fun x => Real.sqrt ((x : ℝ) * (x + 1)))
  else if lowerName name = "webster" then .ok (fun x => (x : ℝ) + 0.5)
  else if lowerName name = "d\x27hondt" then .ok (fun x => (x : ℝ) + 1)
  else if lowerName name = "imperiali" then .ok (fun x => (x : ℝ) + 2)
  else if lowerName name = "danish" then .ok (fun x => (x : ℝ) + 1 / 3)
  else .error "name must be one of the recognized divisor names"

/-- Rounding method passed to the driver: `largest_remainder`, or
`highest_average` with a chosen divisor. -/
inductive Method : Type
  | lr : Method
  | ha : (ℤ → ℚ) → Method

/-- Dispatch of `method(size, n)` inside the driver. -/
def runMethod : Method → SizeMap → ℤ → Except String Alloc
  | .lr, s, n => largest_remainder s n
  | .ha d, s, n => highest_average s n d

/-- Bool test embedding `set(size) == set(units)`. -/
def keysMatch (size : SizeMap) (u : Alloc) : Bool :=
  size.all (fun p => decide (p.1 ∈ u.map Prod.fst)) &&
    u.all (fun p => decide (p.1 ∈ size.map Prod.fst))

/-- Running allocation after `res.update(method(size, n))`: the update adds
the increment pointwise (method results carry exactly the keys of res). -/
def addAlloc (res inc : Alloc) : Alloc :=
  res.map (fun p => (p.1, p.2 + getv inc p.1))

/-- Capacity clamping pass of the driver on the updated counter: every
value is cut at its capacity. -/
def clampRes (u res1 : Alloc) : Alloc :=
  res1.map (fun p => (p.1, min p.2 (getv u p.1)))

/-- Excess returned to the pool by the clamping pass: the sum of the
overshoots `v - units[k]` over the violating entities. -/
def clampExcess (u res1 : Alloc) : ℤ :=
  (res1.map (fun p => max 0 (p.2 - getv u p.1))).sum

/-- Mutation of the caller size mapping performed by the clamping pass:
entities clamped this round get size zero. -/
def clampSize (u res1 : Alloc) (size : SizeMap) : SizeMap :=
  size.map (fun s => (s.1, if getv u s.1 < getv res1 s.1 then 0 else s.2))

/-- Driver loop `while n > 0`, with explicit fuel; `none` means the fuel was
exhausted, the error case carries the size mapping as mutated so far
(Python leaves the caller with the mutated dict when it raises). -/
def allocLoop (m : Method) (u : Alloc) :
    ℕ → SizeMap → Alloc → ℤ → Option (Except (String × SizeMap) (Alloc × SizeMap))
  | 0, _, _, _ => none
  | fuel + 1, size, res, n =>
    if n ≤ 0 then some (.ok (res, size))
    else
      match runMethod m size n with
      | .error e => some (.error (e, size))
      | .ok inc =>
        let res1 := addAlloc res inc
        allocLoop m u fuel (clampSize u res1 size) (clampRes u res1) (clampExcess u res1)

/-- Effective capacity mapping: the supplied one, or the default that puts
cap n on every entity. -/
def effUnits (size : SizeMap) (n : ℤ) : Option Alloc → Alloc
  | none => size.map (fun p => (p.1, n))
  | some u => u

/-- Embedding of the driver `allocate(size, n, units, initial, method)`;
the precondition checks mirror the source order, and the result pairs the
allocation with the final (possibly mutated) size mapping. -/
def allocate (size : SizeMap) (n : ℤ) (uopt : Option Alloc) (initial : ℤ)
    (m : Method) (fuel : ℕ) : Option (Except (String × SizeMap) (Alloc × SizeMap)) :=
  if n < 0 then some (.error ("n must be positive", size))
  else if initial < 0 then some (.error ("intial must be positive", size))
  else if n < initial * size.length then
    some (.error ("initial allocation too large", size))
  else
    match uopt with
    | none =>
        allocLoop m (effUnits size n none) fuel size
          (size.map (fun p => (p.1, initial))) (n - initial * size.length)
    | some u =>
        if keysMatch size u then
          if u.any (fun p => decide (p.2 < 0)) then
            some (.error ("units cannot have negative values", size))
          else
            allocLoop m u fuel size
              (size.map (fun p => (p.1, initial))) (n - initial * size.length)
        else some (.error ("size and units must have the same keys", size))

@[simp] lemma qadd_eq (a b : ℚ) : qadd a b = a + b := by
  have ha : (a.den : ℚ) ≠ 0 := Nat.cast_ne_zero.mpr a.den_nz
  have hb : (b.den : ℚ) ≠ 0 := Nat.cast_ne_zero.mpr b.den_nz
  rw [qadd, Rat.divInt_eq_div]
  push_cast
  conv_rhs => rw [← Rat.num_div_den a, ← Rat.num_div_den b]
  field_simp

@[simp] lemma qmul_eq (a b : ℚ) : qmul a b = a * b := by
  have ha : (a.den : ℚ) ≠ 0 := Nat.cast_ne_zero.mpr a.den_nz
  have hb : (b.den : ℚ) ≠ 0 := Nat.cast_ne_zero.mpr b.den_nz
  rw [qmul, Rat.divInt_eq_div]
  push_cast
  conv_rhs => rw [← Rat.num_div_den a, ← Rat.num_div_den b]
  field_simp

@[simp] lemma qsub_eq (a b : ℚ) : qsub a b = a - b := by
  have ha : (a.den : ℚ) ≠ 0 := Nat.cast_ne_zero.mpr a.den_nz
  have hb : (b.den : ℚ) ≠ 0 := Nat.cast_ne_zero.mpr b.den_nz
  rw [qsub, Rat.divInt_eq_div]
  push_cast
  conv_rhs => rw [← Rat.num_div_den a, ← Rat.num_div_den b]
  field_simp
  ring

@[simp] lemma qdiv_eq (a b : ℚ) : qdiv a b = a / b := by
  rcases eq_or_ne b 0 with rfl | hb
  · simp [qdiv]
  · have ha : (a.den : ℚ) ≠ 0 := Nat.cast_ne_zero.mpr a.den_nz
    have hbd : (b.den : ℚ) ≠ 0 := Nat.cast_ne_zero.mpr b.den_nz
    have hbn : (b.num : ℚ) ≠ 0 := Int.cast_ne_zero.mpr (Rat.num_ne_zero.mpr hb)
    rw [qdiv, Rat.divInt_eq_div]
    push_cast
    conv_rhs => rw [← Rat.num_div_den a, ← Rat.num_div_den b]
    rw [div_div_div_comm]
    field_simp
    exact Or.inl (mul_comm _ _)

@[simp] lemma sumq_eq (size : List (String × ℚ)) : sumq size = sumv size := by
  rw [sumq, sumv]
  induction size.map Prod.snd with
  | nil => rfl
  | cons x t ih => simp [List.foldr_cons, ih]

/-! Basic lemmas about counter lookup, keys and sums. -/

lemma getv_not_mem {α : Type} [Zero α] {l : List (String × α)} {k : String}
    (h : k ∉ l.map Prod.fst) : getv l k = 0 := by
  induction l with
  | nil => rfl
  | cons p ps ih =>
    simp only [List.map_cons, List.mem_cons, not_or] at h
    simp [getv, h.1, Ne.symm h.1, ih h.2]

lemma getv_mem {α : Type} [Zero α] {l : List (String × α)} {k : String}
    (h : k ∈ l.map Prod.fst) : (k, getv l k) ∈ l := by
  induction l with
  | nil => simp at h
  | cons p ps ih =>
    by_cases hk : p.1 = k
    · subst hk; simp [getv]
    · simp only [List.map_cons, List.mem_cons] at h
      rcases h with h | h
      · exact absurd h.symm hk
      · simp only [getv, if_neg hk]
        exact List.mem_cons_of_mem _ (ih h)

lemma getv_eq_of_mem {α : Type} [Zero α] {l : List (String × α)} {p : String × α}
    (hnd : (l.map Prod.fst).Nodup) (h : p ∈ l) : getv l p.1 = p.2 := by
  induction l with
  | nil => simp at h
  | cons q qs ih =>
    simp only [List.map_cons, List.nodup_cons] at hnd
    rcases List.mem_cons.mp h with rfl | h
    · simp [getv]
    · have hq : q.1 ≠ p.1 := by
        intro he
        exact hnd.1 (he ▸ List.mem_map_of_mem Prod.fst h)
      simp [getv, hq, ih hnd.2 h]

lemma keys_mapVal {α β : Type} (f : String → α → β) (l : List (String × α)) :
    (l.map (fun p => (p.1, f p.1 p.2))).map Prod.fst = l.map Prod.fst := by
  simp [List.map_map, Function.comp]

lemma getv_mapVal {α β : Type} [Zero α] [Zero β] (f : String → α → β)
    {l : List (String × α)} {k : String} (h : k ∈ l.map Prod.fst) :
    getv (l.map (fun p => (p.1, f p.1 p.2))) k = f k (getv l k) := by
  induction l with
  | nil => simp at h
  | cons p ps ih =>
    by_cases hk : p.1 = k
    · subst hk; simp [getv]
    · simp only [List.map_cons, List.mem_cons] at h
      rcases h with h | h
      · exact absurd h.symm hk
      · simp only [List.map_cons, getv, if_neg hk]
        exact ih h

lemma sumv_nonneg {l : List (String × ℤ)} (h : ∀ p ∈ l, 0 ≤ p.2) : 0 ≤ sumv l := by
  induction l with
  | nil => simp [sumv]
  | cons p ps ih =>
    simp only [sumv, List.map_cons, List.sum_cons]
    have h1 := h p (List.mem_cons_self p ps)
    have h2 := ih (fun q hq => h q (List.mem_cons_of_mem _ hq))
    simp only [sumv] at h2
    omega

lemma sumv_q_nonneg {l : List (String × ℚ)} (h : ∀ p ∈ l, 0 ≤ p.2) : 0 ≤ sumv l := by
  induction l with
  | nil => simp [sumv]
  | cons p ps ih =>
    simp only [sumv, List.map_cons, List.sum_cons]
    have h1 := h p (List.mem_cons_self p ps)
    have h2 := ih (fun q hq => h q (List.mem_cons_of_mem _ hq))
    simp only [sumv] at h2
    linarith

lemma sumv_q_pos {l : List (String × ℚ)} (h : ∀ p ∈ l, 0 ≤ p.2)
    (hne : sumv l ≠ 0) : 0 < sumv l :=
  lt_of_le_of_ne (sumv_q_nonneg h) (Ne.symm hne)

lemma sum_map_add {α β : Type} [AddCommMonoid α] (l : List β) (f g : β → α) :
    (l.map (fun x => f x + g x)).sum = (l.map f).sum + (l.map g).sum := by
  induction l with
  | nil => simp
  | cons x t ih => simp [ih]; exact add_add_add_comm _ _ _ _

lemma sum_map_mul_left (l : List (String × ℚ)) (c : ℚ) (f : (String × ℚ) → ℚ) :
    (l.map (fun x => c * f x)).sum = c * (l.map f).sum := by
  induction l with
  | nil => simp
  | cons x t ih => simp [ih, mul_add]

lemma sum_map_le (l : List (String × ℚ)) (f g : (String × ℚ) → ℚ)
    (h : ∀ x ∈ l, f x ≤ g x) : (l.map f).sum ≤ (l.map g).sum := by
  induction l with
  | nil => simp
  | cons x t ih =>
    simp only [List.map_cons, List.sum_cons]
    have h1 := h x (List.mem_cons_self x t)
    have h2 := ih (fun y hy => h y (List.mem_cons_of_mem _ hy))
    linarith

lemma cast_sumv (l : List (String × ℤ)) :
    ((sumv l : ℤ) : ℚ) = (l.map (fun p => ((p.2 : ℤ) : ℚ))).sum := by
  induction l with
  | nil => simp [sumv]
  | cons p ps ih => simp [sumv, List.map_cons, List.sum_cons] at ih ⊢; push_cast; rw [← ih]

lemma sum_indicator_eq_countP (l : List (String × ℚ)) (P : (String × ℚ) → Prop)
    [DecidablePred P] :
    (l.map (fun x => if P x then (1 : ℚ) else 0)).sum =
      (l.countP (fun x => decide (P x)) : ℕ) := by
  induction l with
  | nil => simp
  | cons x t ih =>
    simp only [List.map_cons, List.sum_cons, List.countP_cons, ih]
    by_cases hq : P x <;> simp [hq] <;> push_cast <;> ring

lemma countP_or_split {α : Type} (l : List α) (p q : α → Bool)
    (hdis : ∀ x ∈ l, ¬(p x = true ∧ q x = true)) :
    l.countP (fun x => p x || q x) = l.countP p + l.countP q := by
  induction l with
  | nil => simp
  | cons x t ih =>
    have ht := ih (fun y hy => hdis y (List.mem_cons_of_mem _ hy))
    have hx := hdis x (List.mem_cons_self x t)
    simp only [List.countP_cons, ht]
    by_cases hp : p x <;> by_cases hq : q x <;> simp [hp, hq] at hx ⊢ <;> omega

lemma countP_key_eq_one {α : Type} {l : List (String × α)} {k : String}
    (hnd : (l.map Prod.fst).Nodup) (hk : k ∈ l.map Prod.fst) :
    l.countP (fun p => decide (p.1 = k)) = 1 := by
  induction l with
  | nil => simp at hk
  | cons p ps ih =>
    simp only [List.map_cons, List.nodup_cons] at hnd
    by_cases he : p.1 = k
    · subst he
      have : ps.countP (fun q => decide (q.1 = p.1)) = 0 := by
        rw [List.countP_eq_zero]
        intro q hq
        simp only [decide_eq_true_eq]
        intro hc
        exact hnd.1 (hc ▸ List.mem_map_of_mem Prod.fst hq)
      simp [List.countP_cons, this]
    · simp only [List.map_cons, List.mem_cons] at hk
      rcases hk with hk | hk
      · exact absurd hk.symm he
      · simp [List.countP_cons, he, ih hnd.2 hk]

lemma countP_mem_keys {α : Type} {l : List (String × α)}
    (hnd : (l.map Prod.fst).Nodup) :
    ∀ (A : List String), A.Nodup → (∀ a ∈ A, a ∈ l.map Prod.fst) →
      l.countP (fun p => decide (p.1 ∈ A)) = A.length := by
  intro A
  induction A with
  | nil => intro _ _; simp [List.countP_eq_zero]
  | cons a A ihA =>
    intro hA hsub
    simp only [List.nodup_cons] at hA
    have hdis : ∀ x ∈ l, ¬((decide (x.1 = a)) = true ∧ (decide (x.1 ∈ A)) = true) := by
      intro x _
      simp only [decide_eq_true_eq]
      rintro ⟨rfl, hmem⟩
      exact hA.1 hmem
    have hcong : l.countP (fun p => decide (p.1 ∈ a :: A)) =
        l.countP (fun p => decide (p.1 = a) || decide (p.1 ∈ A)) := by
      apply List.countP_congr
      intro x _
      simp [List.mem_cons]
    rw [hcong, countP_or_split l _ _ hdis,
      countP_key_eq_one hnd (hsub a (List.mem_cons_self a A)),
      ihA hA.2 (fun b hb => hsub b (List.mem_cons_of_mem _ hb))]
    simp only [List.length_cons]
    omega

/-! Lemmas about the stable sort used by the largest remainder method. -/

lemma stableInsert_perm (p : String × ℚ) (l : List (String × ℚ)) :
    List.Perm (stableInsert p l) (p :: l) := by
  induction l with
  | nil => simp [stableInsert]
  | cons q qs ih =>
    simp only [stableInsert]
    by_cases hlt : q.2 < p.2
    · simp only [if_pos hlt]
      exact (ih.cons q).trans (List.Perm.swap p q qs)
    · simp [if_neg hlt]

lemma sortRem_perm (l : List (String × ℚ)) : List.Perm (sortRem l) l := by
  induction l with
  | nil => simp [sortRem]
  | cons p ps ih => exact (stableInsert_perm p (sortRem ps)).trans (ih.cons p)

lemma stableInsert_pairwise (p : String × ℚ) (l : List (String × ℚ))
    (hs : l.Pairwise (fun a b => a.2 ≤ b.2)) :
    (stableInsert p l).Pairwise (fun a b => a.2 ≤ b.2) := by
  induction l with
  | nil => simp [stableInsert]
  | cons q qs ih =>
    rcases List.pairwise_cons.mp hs with ⟨hq, hqs⟩
    simp only [stableInsert]
    by_cases hlt : q.2 < p.2
    · simp only [if_pos hlt]
      refine List.pairwise_cons.mpr ⟨?_, ih hqs⟩
      intro r hr
      have : r ∈ p :: qs := (stableInsert_perm p qs).mem_iff.mp hr
      rcases List.mem_cons.mp this with rfl | hr
      · exact le_of_lt hlt
      · exact hq r hr
    · simp only [if_neg hlt]
      refine List.pairwise_cons.mpr ⟨?_, hs⟩
      intro r hr
      rcases List.mem_cons.mp hr with rfl | hr
      · exact le_of_not_lt hlt
      · exact le_trans (le_of_not_lt hlt) (hq r hr)

lemma sortRem_pairwise (l : List (String × ℚ)) :
    (sortRem l).Pairwise (fun a b => a.2 ≤ b.2) := by
  induction l with
  | nil => simp [sortRem]
  | cons p ps ih => exact stableInsert_pairwise p (sortRem ps) ih

lemma take_sorted_neg (l : List (String × ℚ))
    (hs : l.Pairwise (fun a b => a.2 ≤ b.2)) :
    ∀ m, m ≤ l.countP (fun p => decide (p.2 < 0)) →
      ∀ p ∈ l.take m, p.2 < 0 := by
  induction l with
  | nil => intro m _ p hp; simp at hp
  | cons x t ih =>
    intro m hm p hp
    rcases List.pairwise_cons.mp hs with ⟨hx, ht⟩
    match m with
    | 0 => simp at hp
    | m + 1 =>
      by_cases hneg : x.2 < 0
      · rcases List.mem_cons.mp (by simpa using hp) with rfl | hp
        · exact hneg
        · refine ih ht m ?_ p hp
          have : (x :: t).countP (fun p => decide (p.2 < 0)) =
              t.countP (fun p => decide (p.2 < 0)) + 1 := by
            simp [List.countP_cons, hneg]
          omega
      · exfalso
        have : (x :: t).countP (fun p => decide (p.2 < 0)) = 0 := by
          rw [List.countP_eq_zero]
          intro q hq
          simp only [decide_eq_true_eq]
          rcases List.mem_cons.mp hq with rfl | hq
          · exact hneg
          · intro hc
            exact hneg (lt_of_le_of_lt (hx q hq) hc)
        omega

/-! Lemmas about the largest remainder method. -/

lemma sum_map_sub (l : List (String × ℚ)) (f g : (String × ℚ) → ℚ) :
    (l.map (fun x => f x - g x)).sum = (l.map f).sum - (l.map g).sum := by
  induction l with
  | nil => simp
  | cons x t ih =>
    simp only [List.map_cons, List.sum_cons, ih]
    ring

lemma sum_indicator_eq_countP_int (l : List (String × ℤ)) (P : (String × ℤ) → Prop)
    [DecidablePred P] :
    (l.map (fun x => if P x then (1 : ℤ) else 0)).sum =
      (l.countP (fun x => decide (P x)) : ℕ) := by
  induction l with
  | nil => simp
  | cons x t ih =>
    simp only [List.map_cons, List.sum_cons, List.countP_cons, ih]
    by_cases hq : P x <;> simp [hq] <;> push_cast <;> ring

lemma lrShare_eq (n : ℤ) (S x : ℚ) : lrShare n S x = (n : ℚ) * x / S := by
  simp [lrShare]

lemma lrShare_nonneg {n : ℤ} {S x : ℚ} (hn : 0 ≤ n) (hS : 0 < S) (hx : 0 ≤ x) :
    0 ≤ lrShare n S x := by
  rw [lrShare_eq]
  have : (0 : ℚ) ≤ (n : ℚ) := by exact_mod_cast hn
  positivity

lemma lrShare_zero (n : ℤ) (S : ℚ) : lrShare n S 0 = 0 := by
  rw [lrShare_eq]; simp

lemma sum_lrShare (size : SizeMap) (n : ℤ) (hS : sumv size ≠ 0) :
    (size.map (fun p => lrShare n (sumv size) p.2)).sum = (n : ℚ) := by
  have hmap : size.map (fun p => lrShare n (sumv size) p.2) =
      size.map (fun p => ((n : ℚ) / sumv size) * p.2) := by
    apply List.map_congr_left
    intro p _
    rw [lrShare_eq]
    ring
  rw [hmap, sum_map_mul_left size ((n : ℚ) / sumv size) Prod.snd]
  rw [← sumv, div_mul_cancel₀ _ hS]

lemma lrFloor_keys (size : SizeMap) (n : ℤ) (S : ℚ) :
    (lrFloor size n S).map Prod.fst = size.map Prod.fst :=
  keys_mapVal (fun _ v => ⌊lrShare n S v⌋) size

lemma lrFloor_getv {size : SizeMap} {k : String} (n : ℤ) (S : ℚ)
    (hk : k ∈ size.map Prod.fst) :
    getv (lrFloor size n S) k = ⌊lrShare n S (getv size k)⌋ :=
  getv_mapVal (fun _ v => ⌊lrShare n S v⌋) hk

lemma lrRem_keys (size : SizeMap) (n : ℤ) (S : ℚ) :
    (lrRem size n S).map Prod.fst = size.map Prod.fst :=
  keys_mapVal (fun _ v => qsub (⌊lrShare n S v⌋ : ℚ) (lrShare n S v)) size

lemma lrRem_getv {size : SizeMap} {k : String} (n : ℤ) (S : ℚ)
    (hk : k ∈ size.map Prod.fst) :
    getv (lrRem size n S) k =
      (⌊lrShare n S (getv size k)⌋ : ℚ) - lrShare n S (getv size k) := by
  have h := getv_mapVal
    (fun _ v => qsub (⌊lrShare n S v⌋ : ℚ) (lrShare n S v)) (l := size) hk
  rw [lrRem]
  simpa [qsub_eq] using h

lemma lr_total_cast (size : SizeMap) (n : ℤ) (S : ℚ) :
    ((sumv (lrFloor size n S) : ℤ) : ℚ) =
      (size.map (fun p => (⌊lrShare n S p.2⌋ : ℚ))).sum := by
  rw [cast_sumv, lrFloor, List.map_map]
  rfl

lemma lr_shortfall_cast (size : SizeMap) (n : ℤ) (hS : sumv size ≠ 0) :
    ((n - sumv (lrFloor size n (sumv size)) : ℤ) : ℚ) =
      (size.map (fun p =>
        lrShare n (sumv size) p.2 - (⌊lrShare n (sumv size) p.2⌋ : ℚ))).sum := by
  rw [sum_map_sub, sum_lrShare size n hS]
  push_cast [lr_total_cast]
  ring

lemma sum_map_nonneg (l : List (String × ℚ)) (f : (String × ℚ) → ℚ)
    (h : ∀ x ∈ l, 0 ≤ f x) : 0 ≤ (l.map f).sum := by
  have := sum_map_le l (fun _ => 0) f h
  simpa using this

lemma lr_shortfall_nonneg (size : SizeMap) (n : ℤ) (hS : sumv size ≠ 0) :
    0 ≤ n - sumv (lrFloor size n (sumv size)) := by
  have h : (0 : ℚ) ≤ ((n - sumv (lrFloor size n (sumv size)) : ℤ) : ℚ) := by
    rw [lr_shortfall_cast size n hS]
    apply sum_map_nonneg
    intro p _
    have := Int.floor_le (lrShare n (sumv size) p.2)
    linarith
  exact_mod_cast h

lemma lr_shortfall_le_countP (size : SizeMap) (n : ℤ) (hS : sumv size ≠ 0) :
    n - sumv (lrFloor size n (sumv size)) ≤
      ((lrRem size n (sumv size)).countP (fun p => decide (p.2 < 0)) : ℕ) := by
  have hc : (lrRem size n (sumv size)).countP (fun p => decide (p.2 < 0)) =
      size.countP (fun p => decide
        (0 < lrShare n (sumv size) p.2 - (⌊lrShare n (sumv size) p.2⌋ : ℚ))) := by
    rw [lrRem, List.countP_map]
    apply List.countP_congr
    intro p _
    simp only [Function.comp_apply, qsub_eq, decide_eq_decide, decide_eq_true_eq]
    constructor <;> intro h <;> linarith
  have hq : ((n - sumv (lrFloor size n (sumv size)) : ℤ) : ℚ) ≤
      (size.countP (fun p => decide
        (0 < lrShare n (sumv size) p.2 - (⌊lrShare n (sumv size) p.2⌋ : ℚ))) : ℕ) := by
    rw [lr_shortfall_cast size n hS,
      ← sum_indicator_eq_countP size
        (fun p => 0 < lrShare n (sumv size) p.2 - (⌊lrShare n (sumv size) p.2⌋ : ℚ))]
    apply sum_map_le
    intro p _
    have hlt := Int.lt_floor_add_one (lrShare n (sumv size) p.2)
    by_cases hpos : 0 < lrShare n (sumv size) p.2 - (⌊lrShare n (sumv size) p.2⌋ : ℚ)
    · rw [if_pos hpos]; linarith
    · rw [if_neg hpos]; linarith
  rw [hc]
  exact_mod_cast hq

lemma lrAddOne_subset {size : SizeMap} {n : ℤ} {S : ℚ} {k : String}
    (hk : k ∈ lrAddOne size n S) : k ∈ size.map Prod.fst := by
  rw [lrAddOne] at hk
  have h1 : k ∈ (sortRem (lrRem size n S)).map Prod.fst := List.mem_of_mem_take hk
  have h2 := ((sortRem_perm (lrRem size n S)).map Prod.fst).mem_iff.mp h1
  rwa [lrRem_keys] at h2

lemma lrAddOne_nodup (size : SizeMap) (n : ℤ) (S : ℚ)
    (hnd : (size.map Prod.fst).Nodup) : (lrAddOne size n S).Nodup := by
  rw [lrAddOne]
  apply List.Nodup.sublist (List.take_sublist _ _)
  apply (((sortRem_perm (lrRem size n S)).map Prod.fst).nodup_iff).mpr
  rwa [lrRem_keys]

lemma lrAddOne_length (size : SizeMap) (n : ℤ) (hS : sumv size ≠ 0) :
    (lrAddOne size n (sumv size)).length = (n - sumv (lrFloor size n (sumv size))).toNat := by
  rw [lrAddOne, List.length_take]
  have h1 := lr_shortfall_le_countP size n hS
  have h2 : (lrRem size n (sumv size)).countP (fun p => decide (p.2 < 0)) ≤
      (lrRem size n (sumv size)).length := List.countP_le_length _
  have h3 : ((sortRem (lrRem size n (sumv size))).map Prod.fst).length =
      (lrRem size n (sumv size)).length := by
    rw [List.length_map, (sortRem_perm _).length_eq]
  omega

lemma lrAddOne_rem_neg {size : SizeMap} {n : ℤ} {k : String}
    (hnd : (size.map Prod.fst).Nodup) (hS : sumv size ≠ 0)
    (hk : k ∈ lrAddOne size n (sumv size)) :
    getv (lrRem size n (sumv size)) k < 0 := by
  rw [lrAddOne, ← List.map_take] at hk
  obtain ⟨p, hp, rfl⟩ := List.mem_map.mp hk
  have hcount : (n - sumv (lrFloor size n (sumv size))).toNat ≤
      (sortRem (lrRem size n (sumv size))).countP (fun p => decide (p.2 < 0)) := by
    rw [(sortRem_perm _).countP_eq]
    have := lr_shortfall_le_countP size n hS
    omega
  have hneg : p.2 < 0 :=
    take_sorted_neg _ (sortRem_pairwise _) _ hcount p hp
  have hpmem : p ∈ lrRem size n (sumv size) :=
    (sortRem_perm _).mem_iff.mp (List.mem_of_mem_take hp)
  have hgv : getv (lrRem size n (sumv size)) p.1 = p.2 :=
    getv_eq_of_mem (by rw [lrRem_keys]; exact hnd) hpmem
  rw [hgv]
  exact hneg

lemma sumv_mapVal {α β : Type} [AddCommMonoid β] (f : String → α → β)
    (l : List (String × α)) :
    sumv (l.map (fun p => (p.1, f p.1 p.2))) = (l.map (fun p => f p.1 p.2)).sum := by
  rw [sumv, List.map_map]
  rfl

lemma lrResult_keys (size : SizeMap) (n : ℤ) :
    (lrResult size n).map Prod.fst = size.map Prod.fst := by
  rw [lrResult]
  rw [keys_mapVal (fun j v => if j ∈ lrAddOne size n (sumq size) then v + 1 else v)]
  exact lrFloor_keys size n _

lemma lrResult_getv {size : SizeMap} {k : String} (n : ℤ)
    (hk : k ∈ size.map Prod.fst) :
    getv (lrResult size n) k =
      ⌊lrShare n (sumv size) (getv size k)⌋ +
        (if k ∈ lrAddOne size n (sumv size) then 1 else 0) := by
  rw [lrResult]
  have h1 := getv_mapVal (fun j v => if j ∈ lrAddOne size n (sumq size) then v + 1 else v)
      (l := lrFloor size n (sumq size)) (k := k)
      (by rw [lrFloor_keys]; exact hk)
  simp only [sumq_eq] at h1 ⊢
  rw [h1, lrFloor_getv n _ hk]
  split_ifs <;> omega

lemma lrResult_sumv (size : SizeMap) (n : ℤ)
    (hnd : (size.map Prod.fst).Nodup) (hn : 0 ≤ n)
    (hnn : ∀ p ∈ size, 0 ≤ p.2) (hS : sumv size ≠ 0) :
    sumv (lrResult size n) = n := by
  rw [lrResult]
  simp only [sumq_eq]
  rw [sumv_mapVal (fun j v => if j ∈ lrAddOne size n (sumv size) then v + 1 else v)]
  have hcong : (lrFloor size n (sumv size)).map
      (fun p => if p.1 ∈ lrAddOne size n (sumv size) then p.2 + 1 else p.2) =
      (lrFloor size n (sumv size)).map
      (fun p => p.2 + (if p.1 ∈ lrAddOne size n (sumv size) then (1 : ℤ) else 0)) := by
    apply List.map_congr_left
    intro p _
    split_ifs <;> omega
  rw [hcong, sum_map_add]
  have hind := sum_indicator_eq_countP_int (lrFloor size n (sumv size))
      (fun p => p.1 ∈ lrAddOne size n (sumv size))
  rw [hind]
  have hcnt : (lrFloor size n (sumv size)).countP
      (fun p => decide (p.1 ∈ lrAddOne size n (sumv size))) =
      (lrAddOne size n (sumv size)).length := by
    apply countP_mem_keys
    · rw [lrFloor_keys]; exact hnd
    · exact lrAddOne_nodup size n _ hnd
    · intro a ha
      rw [lrFloor_keys]
      exact lrAddOne_subset ha
  rw [hcnt, lrAddOne_length size n hS]
  have hsh := lr_shortfall_nonneg size n hS
  have : ((lrFloor size n (sumv size)).map Prod.snd).sum = sumv (lrFloor size n (sumv size)) := rfl
  rw [this]
  omega

lemma lrResult_nonneg (size : SizeMap) (n : ℤ) (hn : 0 ≤ n)
    (hnn : ∀ p ∈ size, 0 ≤ p.2) (hS : sumv size ≠ 0) :
    ∀ p ∈ lrResult size n, 0 ≤ p.2 := by
  intro p hp
  rw [lrResult] at hp
  obtain ⟨q, hq, rfl⟩ := List.mem_map.mp hp
  rw [lrFloor] at hq
  obtain ⟨r, hr, rfl⟩ := List.mem_map.mp hq
  have h0 : 0 ≤ ⌊lrShare n (sumq size) r.2⌋ := by
    rw [sumq_eq]
    exact Int.floor_nonneg.mpr (lrShare_nonneg hn (sumv_q_pos hnn hS) (hnn r hr))
  dsimp only
  split_ifs <;> omega

lemma lrResult_zero {size : SizeMap} {n : ℤ} {k : String}
    (hnd : (size.map Prod.fst).Nodup) (hS : sumv size ≠ 0)
    (hk : k ∈ size.map Prod.fst) (h0 : getv size k = 0) :
    getv (lrResult size n) k = 0 := by
  rw [lrResult_getv n hk]
  have hnotA : k ∉ lrAddOne size n (sumv size) := by
    intro hmem
    have hlt := lrAddOne_rem_neg hnd hS hmem
    rw [lrRem_getv n _ hk, h0, lrShare_zero] at hlt
    simp at hlt
  rw [h0, lrShare_zero]
  simp [hnotA]

lemma largest_remainder_ok {size : SizeMap} {n : ℤ} {a : Alloc}
    (h : largest_remainder size n = .ok a) :
    a = lrResult size n ∧ 0 ≤ n ∧ (∀ p ∈ size, 0 ≤ p.2) ∧ sumv size ≠ 0 := by
  rw [largest_remainder] at h
  split_ifs at h with h1 h2 h3
  all_goals try exact (Except.noConfusion h)
  have ha : lrResult size n = a := by injection h
  refine ⟨ha.symm, not_lt.mp h1, ?_, by simpa [sumq_eq] using h3⟩
  intro p hp
  by_contra hneg
  exact h2 (List.any_eq_true.mpr ⟨p, hp, by simpa using not_le.mp hneg⟩)

lemma largest_remainder_eq_ok (size : SizeMap) (n : ℤ) (hn : 0 ≤ n)
    (hnn : ∀ p ∈ size, 0 ≤ p.2) (hS : sumv size ≠ 0) :
    largest_remainder size n = .ok (lrResult size n) := by
  have h2 : ¬(size.any (fun p => decide (p.2 < 0)) = true) := by
    intro hc
    obtain ⟨p, hp, hd⟩ := List.any_eq_true.mp hc
    rw [decide_eq_true_eq] at hd
    exact absurd hd (not_lt.mpr (hnn p hp))
  have h3 : ¬(sumq size = 0) := by simpa [sumq_eq] using hS
  rw [largest_remainder, if_neg (not_lt.mpr hn), if_neg h2, if_neg h3]

/-! Lemmas about the highest averages method. -/

lemma getv_nonneg {l : Alloc} (h : ∀ p ∈ l, 0 ≤ p.2) (k : String) : 0 ≤ getv l k := by
  induction l with
  | nil => simp [getv]
  | cons p ps ih =>
    rw [getv]
    split_ifs
    · exact h p (List.mem_cons_self p ps)
    · exact ih (fun q hq => h q (List.mem_cons_of_mem _ hq))

lemma keys_incKey (k : String) (l : Alloc) :
    (incKey k l).map Prod.fst = l.map Prod.fst := by
  induction l with
  | nil => rfl
  | cons p ps ih =>
    rw [incKey]
    split_ifs <;> simp [ih]

lemma incKey_not_mem {k : String} {l : Alloc} (h : k ∉ l.map Prod.fst) :
    incKey k l = l := by
  induction l with
  | nil => rfl
  | cons p ps ih =>
    simp only [List.map_cons, List.mem_cons, not_or] at h
    rw [incKey, if_neg (fun he => h.1 he.symm), ih h.2]

lemma getv_incKey_self {k : String} {l : Alloc} (h : k ∈ l.map Prod.fst) :
    getv (incKey k l) k = getv l k + 1 := by
  induction l with
  | nil => simp at h
  | cons p ps ih =>
    by_cases he : p.1 = k
    · simp [incKey, he, getv]
    · have hk : k ∈ ps.map Prod.fst := by
        simp only [List.map_cons, List.mem_cons] at h
        rcases h with h | h
        · exact absurd h.symm he
        · exact h
      simp [incKey, he, getv, ih hk]

lemma getv_incKey_other {k j : String} (hne : j ≠ k) (l : Alloc) :
    getv (incKey k l) j = getv l j := by
  induction l with
  | nil => rfl
  | cons p ps ih =>
    by_cases he : p.1 = k
    · have hpj : ¬(p.1 = j) := fun hc => hne (hc.symm.trans he)
      simp only [incKey, if_pos he, getv, if_neg hpj]
    · simp only [incKey, if_neg he, getv]
      by_cases hj : p.1 = j
      · simp only [if_pos hj]
      · simp only [if_neg hj, ih]

lemma getv_incKey_le (k j : String) (l : Alloc) :
    getv l j ≤ getv (incKey k l) j := by
  by_cases hm : k ∈ l.map Prod.fst
  · by_cases hj : j = k
    · subst hj
      rw [getv_incKey_self hm]
      omega
    · rw [getv_incKey_other hj]
  · rw [incKey_not_mem hm]

lemma incKey_nonneg {l : Alloc} (h : ∀ p ∈ l, 0 ≤ p.2) (k : String) :
    ∀ p ∈ incKey k l, 0 ≤ p.2 := by
  induction l with
  | nil => intro p hp; simp [incKey] at hp
  | cons q qs ih =>
    intro p hp
    rw [incKey] at hp
    split_ifs at hp with he
    · rcases List.mem_cons.mp hp with rfl | hp
      · have := h q (List.mem_cons_self q qs)
        dsimp only
        omega
      · exact h p (List.mem_cons_of_mem _ hp)
    · rcases List.mem_cons.mp hp with rfl | hp
      · exact h p (List.mem_cons_self p qs)
      · exact ih (fun r hr => h r (List.mem_cons_of_mem _ hr)) p hp

lemma sumv_incKey {k : String} {l : Alloc} (h : k ∈ l.map Prod.fst) :
    sumv (incKey k l) = sumv l + 1 := by
  induction l with
  | nil => simp at h
  | cons p ps ih =>
    by_cases he : p.1 = k
    · simp only [incKey, if_pos he, sumv, List.map_cons, List.sum_cons]
      omega
    · have hk : k ∈ ps.map Prod.fst := by
        simp only [List.map_cons, List.mem_cons] at h
        rcases h with h | h
        · exact absurd h.symm he
        · exact h
      have := ih hk
      simp only [incKey, if_neg he, sumv, List.map_cons, List.sum_cons] at this ⊢
      omega

lemma foldl_bestOf_mem (ps : List (String × ℚ)) :
    ∀ p, ps.foldl bestOf p ∈ p :: ps := by
  induction ps with
  | nil => intro p; simp
  | cons x t ih =>
    intro p
    rw [List.foldl_cons]
    have hm := ih (bestOf p x)
    have hbx : bestOf p x ∈ [p, x] := by
      rw [bestOf]
      split_ifs <;> simp
    rcases List.mem_cons.mp hm with he | hmem
    · rw [he]
      rcases List.mem_cons.mp hbx with h | h
      · rw [h]; exact List.mem_cons_self _ _
      · simp only [List.mem_cons, List.mem_singleton] at h
        rcases h with h | h
        · rw [h]
          exact List.mem_cons_of_mem _ (List.mem_cons_self _ _)
        · simp at h
    · exact List.mem_cons_of_mem _ (List.mem_cons_of_mem _ hmem)

lemma le_foldl_bestOf (ps : List (String × ℚ)) :
    ∀ p, ∀ x ∈ p :: ps, x.2 ≤ (ps.foldl bestOf p).2 := by
  induction ps with
  | nil =>
    intro p x hx
    rcases List.mem_cons.mp hx with rfl | hx
    · simp
    · simp at hx
  | cons y t ih =>
    intro p x hx
    rw [List.foldl_cons]
    have hb1 : p.2 ≤ (bestOf p y).2 := by
      rw [bestOf]; split_ifs with h
      · exact le_of_lt h
      · exact le_refl _
    have hb2 : y.2 ≤ (bestOf p y).2 := by
      rw [bestOf]; split_ifs with h
      · exact le_refl _
      · exact le_of_not_lt h
    have hhead := ih (bestOf p y) (bestOf p y) (List.mem_cons_self _ _)
    rcases List.mem_cons.mp hx with rfl | hx
    · exact le_trans hb1 hhead
    rcases List.mem_cons.mp hx with rfl | hx
    · exact le_trans hb2 hhead
    · exact ih (bestOf p y) x (List.mem_cons_of_mem _ hx)

lemma firstMax_mem {l : List (String × ℚ)} {q : String × ℚ}
    (h : firstMax l = some q) : q ∈ l := by
  cases l with
  | nil => cases h
  | cons p ps =>
    rw [firstMax] at h
    injection h with h
    rw [← h]
    exact foldl_bestOf_mem ps p

lemma firstMax_ge {l : List (String × ℚ)} {q : String × ℚ}
    (h : firstMax l = some q) : ∀ x ∈ l, x.2 ≤ q.2 := by
  cases l with
  | nil => intro x hx; simp at hx
  | cons p ps =>
    rw [firstMax] at h
    injection h with h
    intro x hx
    rw [← h]
    exact le_foldl_bestOf ps p x hx

lemma haLoop_keys {size : SizeMap} {d : ℤ → ℚ} :
    ∀ (m : ℕ) (res a : Alloc), haLoop size d m res = .ok a →
      a.map Prod.fst = res.map Prod.fst := by
  intro m
  induction m with
  | zero =>
    intro res a h
    injection h with h
    rw [h]
  | succ m ih =>
    intro res a h
    rw [haLoop] at h
    cases hfm : firstMax (size.map fun p => (p.1, qdiv p.2 (d (getv res p.1)))) with
    | none =>
      rw [hfm] at h
      exact (Except.noConfusion h)
    | some q =>
      rw [hfm] at h
      replace h : haLoop size d m (incKey q.1 res) = .ok a := h
      rw [ih _ _ h, keys_incKey]

lemma haLoop_sumv {size : SizeMap} {d : ℤ → ℚ} :
    ∀ (m : ℕ) (res a : Alloc), haLoop size d m res = .ok a →
      res.map Prod.fst = size.map Prod.fst → sumv a = sumv res + m := by
  intro m
  induction m with
  | zero =>
    intro res a h _
    injection h with h
    rw [h]
    simp
  | succ m ih =>
    intro res a h hkeys
    rw [haLoop] at h
    cases hfm : firstMax (size.map fun p => (p.1, qdiv p.2 (d (getv res p.1)))) with
    | none =>
      rw [hfm] at h
      exact (Except.noConfusion h)
    | some q =>
      rw [hfm] at h
      replace h : haLoop size d m (incKey q.1 res) = .ok a := h
      have hq : q.1 ∈ res.map Prod.fst := by
        have hmem := firstMax_mem hfm
        have : q.1 ∈ (size.map fun p => (p.1, qdiv p.2 (d (getv res p.1)))).map Prod.fst :=
          List.mem_map_of_mem Prod.fst hmem
        rw [keys_mapVal (fun j v => qdiv v (d (getv res j)))] at this
        rw [hkeys]
        exact this
      have := ih _ _ h (by rw [keys_incKey]; exact hkeys)
      rw [this, sumv_incKey hq]
      push_cast
      ring

lemma haLoop_nonneg {size : SizeMap} {d : ℤ → ℚ} :
    ∀ (m : ℕ) (res a : Alloc), haLoop size d m res = .ok a →
      (∀ p ∈ res, 0 ≤ p.2) → ∀ p ∈ a, 0 ≤ p.2 := by
  intro m
  induction m with
  | zero =>
    intro res a h hres
    injection h with h
    rw [← h]
    exact hres
  | succ m ih =>
    intro res a h hres
    rw [haLoop] at h
    cases hfm : firstMax (size.map fun p => (p.1, qdiv p.2 (d (getv res p.1)))) with
    | none =>
      rw [hfm] at h
      exact (Except.noConfusion h)
    | some q =>
      rw [hfm] at h
      replace h : haLoop size d m (incKey q.1 res) = .ok a := h
      exact ih _ _ h (incKey_nonneg hres q.1)

lemma haLoop_mono {size : SizeMap} {d : ℤ → ℚ} :
    ∀ (m : ℕ) (res a b : Alloc), haLoop size d (m + 1) res = .ok a →
      haLoop size d m res = .ok b → ∀ k, getv b k ≤ getv a k := by
  intro m
  induction m with
  | zero =>
    intro res a b ha hb k
    injection hb with hb
    rw [haLoop] at ha
    cases hfm : firstMax (size.map fun p => (p.1, qdiv p.2 (d (getv res p.1)))) with
    | none =>
      rw [hfm] at ha
      exact (Except.noConfusion ha)
    | some q =>
      rw [hfm] at ha
      replace ha : haLoop size d 0 (incKey q.1 res) = .ok a := ha
      injection ha with ha
      rw [← ha, ← hb]
      exact getv_incKey_le q.1 k res
  | succ m ih =>
    intro res a b ha hb k
    rw [haLoop] at hb
    have hstep : haLoop size d (m + 1 + 1) res = haLoop size d m.succ.succ res := rfl
    rw [haLoop] at ha
    cases hfm : firstMax (size.map fun p => (p.1, qdiv p.2 (d (getv res p.1)))) with
    | none =>
      rw [hfm] at hb
      exact (Except.noConfusion hb)
    | some q =>
      rw [hfm] at ha hb
      replace ha : haLoop size d (m + 1) (incKey q.1 res) = .ok a := ha
      replace hb : haLoop size d m (incKey q.1 res) = .ok b := hb
      exact ih _ _ _ ha hb k

lemma haLoop_zero_key {size : SizeMap} {d : ℤ → ℚ} {k : String}
    (hd : ∀ c : ℤ, 0 ≤ c → 0 < d c)
    (hpos : ∃ p ∈ size, 0 < p.2)
    (hnd : (size.map Prod.fst).Nodup)
    (h0 : ∀ p ∈ size, p.1 = k → p.2 = 0) :
    ∀ (m : ℕ) (res a : Alloc), haLoop size d m res = .ok a →
      res.map Prod.fst = size.map Prod.fst → (∀ p ∈ res, 0 ≤ p.2) →
      getv a k = getv res k := by
  intro m
  induction m with
  | zero =>
    intro res a h _ _
    injection h with h
    rw [h]
  | succ m ih =>
    intro res a h hkeys hnn
    rw [haLoop] at h
    cases hfm : firstMax (size.map fun p => (p.1, qdiv p.2 (d (getv res p.1)))) with
    | none =>
      rw [hfm] at h
      exact (Except.noConfusion h)
    | some q =>
      rw [hfm] at h
      replace h : haLoop size d m (incKey q.1 res) = .ok a := h
      obtain ⟨pp, hpp, hppv⟩ := hpos
      have hqpos : 0 < q.2 := by
        have hin : (pp.1, qdiv pp.2 (d (getv res pp.1))) ∈
            size.map (fun p => (p.1, qdiv p.2 (d (getv res p.1)))) :=
          List.mem_map_of_mem _ hpp
        have hge := firstMax_ge hfm _ hin
        have hdv : 0 < d (getv res pp.1) := hd _ (getv_nonneg hnn pp.1)
        have : 0 < qdiv pp.2 (d (getv res pp.1)) := by
          rw [qdiv_eq]
          positivity
        exact lt_of_lt_of_le this hge
      have hqk : q.1 ≠ k := by
        intro he
        obtain ⟨p0, hp0, hp0e⟩ := List.mem_map.mp (firstMax_mem hfm)
        have hz : p0.2 = 0 := h0 p0 hp0 (by rw [← he, ← hp0e])
        rw [← hp0e] at hqpos
        dsimp only at hqpos
        rw [hz, qdiv_eq, zero_div] at hqpos
        exact lt_irrefl 0 hqpos
      have := ih _ _ h (by rw [keys_incKey]; exact hkeys) (incKey_nonneg hnn q.1)
      rw [this, getv_incKey_other (fun hc => hqk hc.symm)]

lemma highest_average_ok {size : SizeMap} {n : ℤ} {d : ℤ → ℚ} {a : Alloc}
    (h : highest_average size n d = .ok a) :
    0 ≤ n ∧ (∀ p ∈ size, 0 ≤ p.2) ∧
      haLoop size d n.toNat (size.map (fun p => (p.1, 0))) = .ok a := by
  rw [highest_average] at h
  split_ifs at h with h1 h2
  all_goals try exact (Except.noConfusion h)
  refine ⟨not_lt.mp h1, ?_, h⟩
  intro p hp
  by_contra hneg
  exact h2 (List.any_eq_true.mpr ⟨p, hp, by simpa using not_le.mp hneg⟩)

lemma highest_average_eq_run (size : SizeMap) (n : ℤ) (d : ℤ → ℚ) (hn : 0 ≤ n)
    (hnn : ∀ p ∈ size, 0 ≤ p.2) :
    highest_average size n d = haLoop size d n.toNat (size.map (fun p => (p.1, 0))) := by
  have h2 : ¬(size.any (fun p => decide (p.2 < 0)) = true) := by
    intro hc
    obtain ⟨p, hp, hd⟩ := List.any_eq_true.mp hc
    rw [decide_eq_true_eq] at hd
    exact absurd hd (not_lt.mpr (hnn p hp))
  rw [highest_average, if_neg (not_lt.mpr hn), if_neg h2]

lemma ha_init_keys (size : SizeMap) :
    ((size.map (fun p => (p.1, (0 : ℤ)))).map Prod.fst) = size.map Prod.fst :=
  keys_mapVal (fun _ _ => (0 : ℤ)) size

lemma ha_init_sumv (size : SizeMap) : sumv (size.map (fun p => (p.1, (0 : ℤ)))) = 0 := by
  induction size with
  | nil => rfl
  | cons p ps ih => simpa [sumv, List.map_cons] using ih

lemma ha_init_nonneg (size : SizeMap) :
    ∀ p ∈ size.map (fun p => (p.1, (0 : ℤ))), 0 ≤ p.2 := by
  intro p hp
  obtain ⟨q, _, rfl⟩ := List.mem_map.mp hp
  exact le_refl 0

lemma highest_average_sumv {size : SizeMap} {n : ℤ} {d : ℤ → ℚ} {a : Alloc}
    (h : highest_average size n d = .ok a) : sumv a = n := by
  obtain ⟨hn, _, hrun⟩ := highest_average_ok h
  have := haLoop_sumv _ _ _ hrun (ha_init_keys size)
  rw [ha_init_sumv] at this
  omega

lemma highest_average_keys {size : SizeMap} {n : ℤ} {d : ℤ → ℚ} {a : Alloc}
    (h : highest_average size n d = .ok a) : a.map Prod.fst = size.map Prod.fst := by
  obtain ⟨_, _, hrun⟩ := highest_average_ok h
  rw [haLoop_keys _ _ _ hrun, ha_init_keys]

lemma highest_average_nonneg {size : SizeMap} {n : ℤ} {d : ℤ → ℚ} {a : Alloc}
    (h : highest_average size n d = .ok a) : ∀ p ∈ a, 0 ≤ p.2 := by
  obtain ⟨_, _, hrun⟩ := highest_average_ok h
  exact haLoop_nonneg _ _ _ hrun (ha_init_nonneg size)

lemma highest_average_zero_key {size : SizeMap} {n : ℤ} {d : ℤ → ℚ} {a : Alloc} {k : String}
    (hd : ∀ c : ℤ, 0 ≤ c → 0 < d c)
    (hpos : ∃ p ∈ size, 0 < p.2)
    (hnd : (size.map Prod.fst).Nodup)
    (hk : getv size k = 0)
    (h : highest_average size n d = .ok a) : getv a k = 0 := by
  obtain ⟨_, _, hrun⟩ := highest_average_ok h
  have h0 : ∀ p ∈ size, p.1 = k → p.2 = 0 := by
    intro p hp he
    have := getv_eq_of_mem hnd hp
    rw [he, hk] at this
    exact this.symm
  have := haLoop_zero_key hd hpos hnd h0 _ _ _ hrun (ha_init_keys size) (ha_init_nonneg size)
  rw [this]
  by_cases hmem : k ∈ size.map Prod.fst
  · exact getv_mapVal (fun _ _ => (0 : ℤ)) hmem
  · exact getv_not_mem (by rw [ha_init_keys]; exact hmem)

/-! Lemmas about the capacity-constrained driver. -/

lemma sum_map_nonneg_int (l : List (String × ℤ)) (f : (String × ℤ) → ℤ)
    (h : ∀ x ∈ l, 0 ≤ f x) : 0 ≤ (l.map f).sum := by
  induction l with
  | nil => simp
  | cons x t ih =>
    simp only [List.map_cons, List.sum_cons]
    have h1 := h x (List.mem_cons_self x t)
    have h2 := ih (fun y hy => h y (List.mem_cons_of_mem _ hy))
    omega

lemma sumv_const (size : SizeMap) (c : ℤ) :
    sumv (size.map (fun p => (p.1, c))) = c * size.length := by
  induction size with
  | nil => simp [sumv]
  | cons p ps ih =>
    simp only [List.map_cons, sumv, List.sum_cons] at ih ⊢
    rw [ih, List.length_cons]
    push_cast
    ring

lemma getv_const {size : SizeMap} {k : String} (c : ℤ) (hk : k ∈ size.map Prod.fst) :
    getv (size.map (fun p => (p.1, c))) k = c :=
  getv_mapVal (fun _ _ => c) hk

lemma keys_addAlloc (res inc : Alloc) :
    (addAlloc res inc).map Prod.fst = res.map Prod.fst :=
  keys_mapVal (fun j v => v + getv inc j) res

lemma getv_addAlloc {res : Alloc} {k : String} (inc : Alloc) (hk : k ∈ res.map Prod.fst) :
    getv (addAlloc res inc) k = getv res k + getv inc k :=
  getv_mapVal (fun j v => v + getv inc j) hk

lemma keys_clampRes (u r : Alloc) :
    (clampRes u r).map Prod.fst = r.map Prod.fst :=
  keys_mapVal (fun j v => min v (getv u j)) r

lemma getv_clampRes {r : Alloc} {k : String} (u : Alloc) (hk : k ∈ r.map Prod.fst) :
    getv (clampRes u r) k = min (getv r k) (getv u k) :=
  getv_mapVal (fun j v => min v (getv u j)) hk

lemma keys_clampSize (u r : Alloc) (size : SizeMap) :
    (clampSize u r size).map Prod.fst = size.map Prod.fst :=
  keys_mapVal (fun j v => if getv u j < getv r j then 0 else v) size

lemma getv_clampSize {size : SizeMap} {k : String} (u r : Alloc)
    (hk : k ∈ size.map Prod.fst) :
    getv (clampSize u r size) k =
      if getv u k < getv r k then 0 else getv size k :=
  getv_mapVal (fun j v => if getv u j < getv r j then 0 else v) hk

lemma sumv_addAlloc : ∀ (res inc : Alloc),
    res.map Prod.fst = inc.map Prod.fst → (res.map Prod.fst).Nodup →
    sumv (addAlloc res inc) = sumv res + sumv inc := by
  intro res
  induction res with
  | nil =>
    intro inc hk _
    cases inc with
    | nil => simp [addAlloc, sumv]
    | cons q qs => simp at hk
  | cons p ps ih =>
    intro inc hk hnd
    cases inc with
    | nil => simp at hk
    | cons q qs =>
      simp only [List.map_cons, List.cons.injEq] at hk
      simp only [List.map_cons, List.nodup_cons] at hnd
      have htail : ps.map (fun r => (r.1, r.2 + getv (q :: qs) r.1)) =
          ps.map (fun r => (r.1, r.2 + getv qs r.1)) := by
        apply List.map_congr_left
        intro x hx
        have hx1 : x.1 ∈ ps.map Prod.fst := List.mem_map_of_mem Prod.fst hx
        have hxq : ¬(q.1 = x.1) := by
          intro he
          rw [← hk.1] at he
          exact hnd.1 (he ▸ hx1)
        simp only [getv, if_neg hxq]
      have hgq : getv (q :: qs) p.1 = q.2 := by
        simp [getv, hk.1]
      have htl := ih qs hk.2 hnd.2
      simp only [addAlloc, sumv, List.map_cons, List.sum_cons] at htl ⊢
      rw [hgq, htail]
      rw [show (List.map Prod.snd (List.map (fun r => (r.1, r.2 + getv qs r.1)) ps)).sum =
        (List.map Prod.snd ps).sum + (List.map Prod.snd qs).sum from htl]
      ring

lemma sumv_clamp_split (u r : Alloc) :
    sumv (clampRes u r) + clampExcess u r = sumv r := by
  rw [clampRes, sumv_mapVal (fun j v => min v (getv u j)), clampExcess]
  have h := sum_map_add r (fun p => min p.2 (getv u p.1)) (fun p => max 0 (p.2 - getv u p.1))
  have hcong : r.map (fun p => min p.2 (getv u p.1) + max 0 (p.2 - getv u p.1)) =
      r.map Prod.snd := by
    apply List.map_congr_left
    intro p _
    omega
  rw [hcong] at h
  rw [sumv]
  exact h.symm

lemma clampExcess_nonneg (u r : Alloc) : 0 ≤ clampExcess u r := by
  rw [clampExcess]
  apply sum_map_nonneg_int
  intro x _
  omega

lemma allocLoop_done {m : Method} {u : Alloc} {fuel : ℕ} {size : SizeMap}
    {res : Alloc} {n : ℤ} (h : n ≤ 0) :
    allocLoop m u (fuel + 1) size res n = some (.ok (res, size)) := by
  rw [allocLoop, if_pos h]

lemma allocLoop_err {m : Method} {u : Alloc} {fuel : ℕ} {size : SizeMap}
    {res : Alloc} {n : ℤ} {e : String} (h : ¬(n ≤ 0))
    (he : runMethod m size n = .error e) :
    allocLoop m u (fuel + 1) size res n = some (.error (e, size)) := by
  rw [allocLoop, if_neg h, he]

lemma allocLoop_step {m : Method} {u : Alloc} {fuel : ℕ} {size : SizeMap}
    {res : Alloc} {n : ℤ} {inc : Alloc} (h : ¬(n ≤ 0))
    (hok : runMethod m size n = .ok inc) :
    allocLoop m u (fuel + 1) size res n =
      allocLoop m u fuel (clampSize u (addAlloc res inc) size)
        (clampRes u (addAlloc res inc)) (clampExcess u (addAlloc res inc)) := by
  rw [allocLoop, if_neg h, hok]

lemma runMethod_ok_facts {m : Method} {size : SizeMap} {n : ℤ} {inc : Alloc}
    (hok : runMethod m size n = .ok inc) (hnd : (size.map Prod.fst).Nodup) :
    inc.map Prod.fst = size.map Prod.fst ∧ (∀ p ∈ inc, 0 ≤ p.2) ∧ sumv inc = n := by
  cases m with
  | lr =>
    obtain ⟨ha, hn, hnn, hS⟩ := largest_remainder_ok hok
    subst ha
    exact ⟨lrResult_keys size n, lrResult_nonneg size n hn hnn hS,
      lrResult_sumv size n hnd hn hnn hS⟩
  | ha d =>
    exact ⟨highest_average_keys hok, highest_average_nonneg hok, highest_average_sumv hok⟩

lemma allocLoop_sumv {m : Method} {u : Alloc} :
    ∀ (fuel : ℕ) (size : SizeMap) (res : Alloc) (n : ℤ) (a : Alloc) (s2 : SizeMap),
      allocLoop m u fuel size res n = some (.ok (a, s2)) →
      res.map Prod.fst = size.map Prod.fst →
      (size.map Prod.fst).Nodup →
      0 ≤ n →
      sumv a = sumv res + n := by
  intro fuel
  induction fuel with
  | zero =>
    intro size res n a s2 h
    exact absurd h (by rw [allocLoop]; simp)
  | succ f ih =>
    intro size res n a s2 h hkeys hnd hn
    by_cases hle : n ≤ 0
    · rw [allocLoop_done hle] at h
      injection h with h
      injection h with h
      injection h with h1 h2
      rw [← h1]
      omega
    · cases hrm : runMethod m size n with
      | error e =>
        rw [allocLoop_err hle hrm] at h
        injection h with h
        exact (Except.noConfusion h)
      | ok inc =>
        rw [allocLoop_step hle hrm] at h
        obtain ⟨hki, hinn, hisum⟩ := runMethod_ok_facts hrm hnd
        have hk1 : (clampRes u (addAlloc res inc)).map Prod.fst =
            (clampSize u (addAlloc res inc) size).map Prod.fst := by
          rw [keys_clampRes, keys_addAlloc, keys_clampSize, hkeys]
        have hnd2 : ((clampSize u (addAlloc res inc) size).map Prod.fst).Nodup := by
          rw [keys_clampSize]
          exact hnd
        have := ih _ _ _ _ _ h hk1 hnd2 (clampExcess_nonneg u _)
        rw [this]
        have hsplit := sumv_clamp_split u (addAlloc res inc)
        have hadd := sumv_addAlloc res inc (by rw [hkeys, hki]) (by rw [hkeys]; exact hnd)
        omega

lemma allocLoop_bounds {m : Method} {u : Alloc} (lo : ℤ) :
    ∀ (fuel : ℕ) (size : SizeMap) (res : Alloc) (n : ℤ) (a : Alloc) (s2 : SizeMap),
      allocLoop m u fuel size res n = some (.ok (a, s2)) →
      res.map Prod.fst = size.map Prod.fst →
      (size.map Prod.fst).Nodup →
      (∀ k ∈ size.map Prod.fst, lo ≤ getv res k ∧ getv res k ≤ getv u k) →
      (∀ k ∈ size.map Prod.fst, lo ≤ getv u k) →
      ∀ k ∈ size.map Prod.fst, lo ≤ getv a k ∧ getv a k ≤ getv u k := by
  intro fuel
  induction fuel with
  | zero =>
    intro size res n a s2 h
    exact absurd h (by rw [allocLoop]; simp)
  | succ f ih =>
    intro size res n a s2 h hkeys hnd hres hu
    by_cases hle : n ≤ 0
    · rw [allocLoop_done hle] at h
      injection h with h
      injection h with h
      injection h with h1 h2
      rw [← h1]
      exact hres
    · cases hrm : runMethod m size n with
      | error e =>
        rw [allocLoop_err hle hrm] at h
        injection h with h
        exact (Except.noConfusion h)
      | ok inc =>
        rw [allocLoop_step hle hrm] at h
        obtain ⟨hki, hinn, hisum⟩ := runMethod_ok_facts hrm hnd
        have hk1 : (clampRes u (addAlloc res inc)).map Prod.fst =
            (clampSize u (addAlloc res inc) size).map Prod.fst := by
          rw [keys_clampRes, keys_addAlloc, keys_clampSize, hkeys]
        have hnd2 : ((clampSize u (addAlloc res inc) size).map Prod.fst).Nodup := by
          rw [keys_clampSize]
          exact hnd
        have hres2 : ∀ k ∈ (clampSize u (addAlloc res inc) size).map Prod.fst,
            lo ≤ getv (clampRes u (addAlloc res inc)) k ∧
              getv (clampRes u (addAlloc res inc)) k ≤ getv u k := by
          intro k hk
          rw [keys_clampSize] at hk
          have hkr : k ∈ (addAlloc res inc).map Prod.fst := by
            rw [keys_addAlloc, hkeys]
            exact hk
          rw [getv_clampRes u hkr, getv_addAlloc inc (by rw [hkeys]; exact hk)]
          have hincnn : 0 ≤ getv inc k := getv_nonneg hinn k
          constructor
          · exact le_min (by have := (hres k hk).1; omega) (hu k hk)
          · exact min_le_right _ _
        have hu2 : ∀ k ∈ (clampSize u (addAlloc res inc) size).map Prod.fst, lo ≤ getv u k := by
          intro k hk
          rw [keys_clampSize] at hk
          exact hu k hk
        have := ih _ _ _ _ _ h hk1 hnd2 hres2 hu2
        intro k hk
        exact this k (by rw [keys_clampSize]; exact hk)

lemma allocLoop_frame {m : Method} {u : Alloc} (s0 : SizeMap) :
    ∀ (fuel : ℕ) (size : SizeMap) (res : Alloc) (n : ℤ) (a : Alloc) (s2 : SizeMap),
      allocLoop m u fuel size res n = some (.ok (a, s2)) →
      res.map Prod.fst = size.map Prod.fst →
      (size.map Prod.fst).Nodup →
      size.map Prod.fst = s0.map Prod.fst →
      (∀ k ∈ size.map Prod.fst,
        getv size k = getv s0 k ∨ (getv size k = 0 ∧ getv res k = getv u k)) →
      s2.map Prod.fst = s0.map Prod.fst ∧
        ∀ k ∈ s0.map Prod.fst,
          getv s2 k = getv s0 k ∨ (getv s2 k = 0 ∧ getv a k = getv u k) := by
  intro fuel
  induction fuel with
  | zero =>
    intro size res n a s2 h
    exact absurd h (by rw [allocLoop]; simp)
  | succ f ih =>
    intro size res n a s2 h hkeys hnd hk0 hinv
    by_cases hle : n ≤ 0
    · rw [allocLoop_done hle] at h
      injection h with h
      injection h with h
      injection h with h1 h2
      subst h1
      subst h2
      refine ⟨hk0, ?_⟩
      intro k hk
      exact hinv k (by rw [hk0]; exact hk)
    · cases hrm : runMethod m size n with
      | error e =>
        rw [allocLoop_err hle hrm] at h
        injection h with h
        exact (Except.noConfusion h)
      | ok inc =>
        rw [allocLoop_step hle hrm] at h
        obtain ⟨hki, hinn, hisum⟩ := runMethod_ok_facts hrm hnd
        have hk1 : (clampRes u (addAlloc res inc)).map Prod.fst =
            (clampSize u (addAlloc res inc) size).map Prod.fst := by
          rw [keys_clampRes, keys_addAlloc, keys_clampSize, hkeys]
        have hnd2 : ((clampSize u (addAlloc res inc) size).map Prod.fst).Nodup := by
          rw [keys_clampSize]
          exact hnd
        have hk02 : (clampSize u (addAlloc res inc) size).map Prod.fst = s0.map Prod.fst := by
          rw [keys_clampSize]
          exact hk0
        have hinv2 : ∀ k ∈ (clampSize u (addAlloc res inc) size).map Prod.fst,
            getv (clampSize u (addAlloc res inc) size) k = getv s0 k ∨
              (getv (clampSize u (addAlloc res inc) size) k = 0 ∧
                getv (clampRes u (addAlloc res inc)) k = getv u k) := by
          intro k hk
          rw [keys_clampSize] at hk
          have hkr : k ∈ (addAlloc res inc).map Prod.fst := by
            rw [keys_addAlloc, hkeys]
            exact hk
          rw [getv_clampSize u _ hk, getv_clampRes u hkr,
            getv_addAlloc inc (by rw [hkeys]; exact hk)]
          by_cases hcl : getv u k < getv (addAlloc res inc) k
          · rw [getv_addAlloc inc (by rw [hkeys]; exact hk)] at hcl
            rw [if_pos (by omega)]
            right
            exact ⟨rfl, by omega⟩
          · rw [getv_addAlloc inc (by rw [hkeys]; exact hk)] at hcl
            rw [if_neg (by omega)]
            rcases hinv k hk with h1 | ⟨h1, h2⟩
            · left
              exact h1
            · right
              have hincnn : 0 ≤ getv inc k := getv_nonneg hinn k
              refine ⟨h1, ?_⟩
              rw [h2] at hcl ⊢
              omega
        exact ih _ _ _ _ _ h hk1 hnd2 hk02 hinv2

lemma keysMatch_iff {size : SizeMap} {u : Alloc} :
    keysMatch size u = true ↔
      (∀ k, k ∈ size.map Prod.fst ↔ k ∈ u.map Prod.fst) := by
  rw [keysMatch, Bool.and_eq_true, List.all_eq_true, List.all_eq_true]
  constructor
  · rintro ⟨hsu, hus⟩ k
    constructor
    · intro hk
      have := hsu (k, getv size k) (getv_mem hk)
      simpa using this
    · intro hk
      have := hus (k, getv u k) (getv_mem hk)
      simpa using this
  · intro hiff
    constructor
    · intro p hp
      have : p.1 ∈ size.map Prod.fst := List.mem_map_of_mem Prod.fst hp
      simpa using (hiff p.1).mp this
    · intro p hp
      have : p.1 ∈ u.map Prod.fst := List.mem_map_of_mem Prod.fst hp
      simpa using (hiff p.1).mpr this

lemma allocate_eq_loop {size : SizeMap} {n : ℤ} {u : Alloc} {initial : ℤ}
    {m : Method} {fuel : ℕ}
    (h1 : ¬(n < 0)) (h2 : ¬(initial < 0)) (h3 : ¬(n < initial * size.length))
    (h4 : keysMatch size u = true) (h5 : ¬(u.any (fun p => decide (p.2 < 0)) = true)) :
    allocate size n (some u) initial m fuel =
      allocLoop m u fuel size (size.map (fun p => (p.1, initial)))
        (n - initial * size.length) := by
  rw [allocate.eq_def, if_neg h1, if_neg h2, if_neg h3]
  simp only [h4, if_true, if_neg h5]

/-! Lemmas for bounded termination of the driver loop. -/

lemma sumv_eq_keys_sum : ∀ (l : Alloc), (l.map Prod.fst).Nodup →
    sumv l = ((l.map Prod.fst).map (getv l)).sum := by
  intro l
  induction l with
  | nil => intro _; rfl
  | cons p ps ih =>
    intro hnd
    simp only [List.map_cons, List.nodup_cons] at hnd
    simp only [sumv, List.map_cons, List.sum_cons]
    have hhead : getv (p :: ps) p.1 = p.2 := by simp [getv]
    have htail : (ps.map Prod.fst).map (getv (p :: ps)) =
        (ps.map Prod.fst).map (getv ps) := by
      apply List.map_congr_left
      intro k hk
      have hne : ¬(p.1 = k) := fun he => hnd.1 (he ▸ hk)
      simp [getv, hne]
    rw [hhead, htail]
    have := ih hnd.2
    simp only [sumv] at this
    rw [this]

lemma sumv_eq_of_getv_eq {l₁ l₂ : Alloc}
    (h₁ : (l₁.map Prod.fst).Nodup) (h₂ : (l₂.map Prod.fst).Nodup)
    (hset : ∀ k, k ∈ l₁.map Prod.fst ↔ k ∈ l₂.map Prod.fst)
    (hval : ∀ k ∈ l₁.map Prod.fst, getv l₁ k = getv l₂ k) :
    sumv l₁ = sumv l₂ := by
  rw [sumv_eq_keys_sum l₁ h₁, sumv_eq_keys_sum l₂ h₂]
  have hstep : (l₁.map Prod.fst).map (getv l₁) = (l₁.map Prod.fst).map (getv l₂) :=
    List.map_congr_left hval
  rw [hstep]
  have hperm : List.Perm (l₁.map Prod.fst) (l₂.map Prod.fst) :=
    (List.perm_ext_iff_of_nodup h₁ h₂).mpr hset
  exact (hperm.map (getv l₂)).sum_eq

lemma countP_map_le {α : Type} (l : List α) (g : α → α) (q : α → Bool)
    (h : ∀ x ∈ l, q (g x) = true → q x = true) :
    (l.map g).countP q ≤ l.countP q := by
  induction l with
  | nil => simp
  | cons x t ih =>
    rw [List.map_cons, List.countP_cons, List.countP_cons]
    have ht := ih (fun y hy => h y (List.mem_cons_of_mem _ hy))
    by_cases hq : q (g x) = true
    · rw [if_pos hq, if_pos (h x (List.mem_cons_self x t) hq)]
      omega
    · rw [if_neg hq]
      split_ifs <;> omega

lemma countP_map_lt {α : Type} (l : List α) (g : α → α) (q : α → Bool)
    (h : ∀ x ∈ l, q (g x) = true → q x = true)
    (hw : ∃ x ∈ l, q x = true ∧ q (g x) = false) :
    (l.map g).countP q + 1 ≤ l.countP q := by
  induction l with
  | nil => simp at hw
  | cons x t ih =>
    rw [List.map_cons, List.countP_cons, List.countP_cons]
    obtain ⟨w, hwmem, hwq, hwg⟩ := hw
    rcases List.mem_cons.mp hwmem with rfl | hwmem
    · have ht := countP_map_le t g q (fun y hy => h y (List.mem_cons_of_mem _ hy))
      rw [if_pos hwq, if_neg (by simp [hwg])]
      omega
    · have ht := ih (fun y hy => h y (List.mem_cons_of_mem _ hy)) ⟨w, hwmem, hwq, hwg⟩
      by_cases hq : q (g x) = true
      · rw [if_pos hq, if_pos (h x (List.mem_cons_self x t) hq)]
        omega
      · rw [if_neg hq]
        split_ifs <;> omega

lemma clampExcess_pos_witness {u : Alloc} : ∀ {r : Alloc},
    0 < clampExcess u r → ∃ p ∈ r, getv u p.1 < p.2 := by
  intro r
  induction r with
  | nil => intro h; simp [clampExcess] at h
  | cons p t ih =>
    intro h
    rw [clampExcess, List.map_cons, List.sum_cons] at h
    by_cases hp : getv u p.1 < p.2
    · exact ⟨p, List.mem_cons_self _ _, hp⟩
    · have hz : max 0 (p.2 - getv u p.1) = 0 := by omega
      rw [hz] at h
      obtain ⟨x, hx, hxx⟩ := ih (by rw [clampExcess]; omega)
      exact ⟨x, List.mem_cons_of_mem _ hx, hxx⟩

lemma sumv_q_pos_of_mem {l : SizeMap} (hnn : ∀ p ∈ l, 0 ≤ p.2) {p0 : String × ℚ}
    (hmem : p0 ∈ l) (hp : 0 < p0.2) : 0 < sumv l := by
  induction l with
  | nil => simp at hmem
  | cons p ps ih =>
    simp only [sumv, List.map_cons, List.sum_cons]
    rcases List.mem_cons.mp hmem with rfl | hmem
    · have := sumv_q_nonneg (fun q hq => hnn q (List.mem_cons_of_mem _ hq))
      simp only [sumv] at this
      linarith
    · have h1 := hnn p (List.mem_cons_self p ps)
      have h2 := ih (fun q hq => hnn q (List.mem_cons_of_mem _ hq)) hmem
      simp only [sumv] at h2
      linarith

lemma firstMax_some {l : List (String × ℚ)} (h : l ≠ []) :
    ∃ q, firstMax l = some q := by
  cases l with
  | nil => exact absurd rfl h
  | cons p ps => exact ⟨ps.foldl bestOf p, rfl⟩

lemma haLoop_ok {size : SizeMap} {d : ℤ → ℚ} (hne : size ≠ []) :
    ∀ (m : ℕ) (res : Alloc), ∃ a, haLoop size d m res = .ok a := by
  intro m
  induction m with
  | zero => intro res; exact ⟨res, rfl⟩
  | succ m ih =>
    intro res
    have hmapne : size.map (fun p => (p.1, qdiv p.2 (d (getv res p.1)))) ≠ [] := by
      intro hc
      exact hne (List.map_eq_nil.mp hc)
    obtain ⟨q, hq⟩ := firstMax_some hmapne
    obtain ⟨a, ha⟩ := ih (incKey q.1 res)
    refine ⟨a, ?_⟩
    rw [haLoop, hq]
    exact ha

lemma runMethod_ok_of {m : Method} {size : SizeMap} {n : ℤ}
    (hm : m = Method.lr ∨ m = Method.ha dhondt) (hn : 0 ≤ n)
    (hnn : ∀ p ∈ size, 0 ≤ p.2) (hS : sumv size ≠ 0) :
    ∃ inc, runMethod m size n = .ok inc := by
  rcases hm with rfl | rfl
  · exact ⟨lrResult size n, largest_remainder_eq_ok size n hn hnn hS⟩
  · rw [runMethod, highest_average_eq_run size n dhondt hn hnn]
    apply haLoop_ok
    intro hc
    subst hc
    simp [sumv] at hS

lemma dhondt_pos : ∀ c : ℤ, 0 ≤ c → 0 < dhondt c := by
  intro c hc
  rw [dhondt]
  exact_mod_cast (by omega : (0 : ℤ) < c + 1)

lemma runMethod_zero_key {m : Method} {size : SizeMap} {n : ℤ} {inc : Alloc} {k : String}
    (hm : m = Method.lr ∨ m = Method.ha dhondt)
    (hok : runMethod m size n = .ok inc)
    (hnd : (size.map Prod.fst).Nodup)
    (hpos : ∃ p ∈ size, 0 < p.2)
    (hk : k ∈ size.map Prod.fst) (h0 : getv size k = 0) : getv inc k = 0 := by
  rcases hm with rfl | rfl
  · obtain ⟨ha, hn, hnn, hS⟩ := largest_remainder_ok hok
    subst ha
    exact lrResult_zero hnd hS hk h0
  · exact highest_average_zero_key dhondt_pos hpos hnd h0 hok

lemma allzero_n_nonpos {size : SizeMap} {res u : Alloc} {n : ℤ}
    (hnd : (size.map Prod.fst).Nodup) (hund : (u.map Prod.fst).Nodup)
    (hkeys : res.map Prod.fst = size.map Prod.fst)
    (hset : ∀ k, k ∈ size.map Prod.fst ↔ k ∈ u.map Prod.fst)
    (hzero : ∀ k ∈ size.map Prod.fst, getv size k = 0 → getv res k = getv u k)
    (hall : ∀ p ∈ size, p.2 = 0)
    (hsum : sumv res + n ≤ sumv u) : n ≤ 0 := by
  have hres_u : sumv res = sumv u := by
    apply sumv_eq_of_getv_eq (by rw [hkeys]; exact hnd) hund
    · intro k
      rw [hkeys]
      exact hset k
    · intro k hk
      rw [hkeys] at hk
      exact hzero k hk (hall (k, getv size k) (getv_mem hk))
  omega

lemma allocLoop_isSome {m : Method} {u : Alloc}
    (hm : m = Method.lr ∨ m = Method.ha dhondt)
    (hund : (u.map Prod.fst).Nodup) :
    ∀ (μ fuel : ℕ) (size : SizeMap) (res : Alloc) (n : ℤ),
      μ + 1 ≤ fuel →
      size.countP (fun p => decide (p.2 ≠ 0)) ≤ μ →
      (size.map Prod.fst).Nodup →
      res.map Prod.fst = size.map Prod.fst →
      (∀ p ∈ size, 0 ≤ p.2) →
      (∀ k, k ∈ size.map Prod.fst ↔ k ∈ u.map Prod.fst) →
      (∀ k ∈ size.map Prod.fst, getv size k = 0 → getv res k = getv u k) →
      0 ≤ n →
      sumv res + n ≤ sumv u →
      (allocLoop m u fuel size res n).isSome = true := by
  intro μ
  induction μ with
  | zero =>
    intro fuel size res n hfuel hcnt hnd hkeys hnn hset hzero hn hsum
    obtain ⟨f, rfl⟩ : ∃ f, fuel = f + 1 := ⟨fuel - 1, by omega⟩
    by_cases hle : n ≤ 0
    · rw [allocLoop_done hle]
      rfl
    · exfalso
      have hall : ∀ p ∈ size, p.2 = 0 := by
        intro p hp
        have hz : size.countP (fun p => decide (p.2 ≠ 0)) = 0 := by omega
        have := List.countP_eq_zero.mp hz p hp
        simpa using this
      exact hle (allzero_n_nonpos hnd hund hkeys hset hzero hall hsum)
  | succ μ ihμ =>
    intro fuel size res n hfuel hcnt hnd hkeys hnn hset hzero hn hsum
    obtain ⟨f, rfl⟩ : ∃ f, fuel = f + 1 := ⟨fuel - 1, by omega⟩
    by_cases hle : n ≤ 0
    · rw [allocLoop_done hle]
      rfl
    · have hnz : ∃ p ∈ size, p.2 ≠ 0 := by
        by_contra hallc
        push_neg at hallc
        exact hle (allzero_n_nonpos hnd hund hkeys hset hzero hallc hsum)
      obtain ⟨pz, hpz, hpzne⟩ := hnz
      have hpos : ∃ p ∈ size, 0 < p.2 :=
        ⟨pz, hpz, lt_of_le_of_ne (hnn pz hpz) (Ne.symm hpzne)⟩
      have hS : sumv size ≠ 0 := by
        obtain ⟨pp, hpp, hppv⟩ := hpos
        exact ne_of_gt (sumv_q_pos_of_mem hnn hpp hppv)
      obtain ⟨inc, hrm⟩ :=
        runMethod_ok_of (n := n) hm (le_of_lt (not_le.mp hle)) hnn hS
      rw [allocLoop_step hle hrm]
      obtain ⟨hki, hinn, hisum⟩ := runMethod_ok_facts hrm hnd
      have hkr1 : (addAlloc res inc).map Prod.fst = size.map Prod.fst := by
        rw [keys_addAlloc, hkeys]
      have hkeys2 : (clampRes u (addAlloc res inc)).map Prod.fst =
          (clampSize u (addAlloc res inc) size).map Prod.fst := by
        rw [keys_clampRes, keys_clampSize, hkr1]
      have hks2 : (clampSize u (addAlloc res inc) size).map Prod.fst = size.map Prod.fst :=
        keys_clampSize u _ size
      have hnd2 : ((clampSize u (addAlloc res inc) size).map Prod.fst).Nodup := by
        rw [hks2]
        exact hnd
      have hnn2 : ∀ p ∈ clampSize u (addAlloc res inc) size, 0 ≤ p.2 := by
        intro p hp
        rw [clampSize] at hp
        obtain ⟨s, hs, rfl⟩ := List.mem_map.mp hp
        dsimp only
        split_ifs
        · exact le_refl 0
        · exact hnn s hs
      have hset2 : ∀ k, k ∈ (clampSize u (addAlloc res inc) size).map Prod.fst ↔
          k ∈ u.map Prod.fst := by
        intro k
        rw [hks2]
        exact hset k
      have hzero2 : ∀ k ∈ (clampSize u (addAlloc res inc) size).map Prod.fst,
          getv (clampSize u (addAlloc res inc) size) k = 0 →
          getv (clampRes u (addAlloc res inc)) k = getv u k := by
        intro k hk h0
        rw [hks2] at hk
        have hkr : k ∈ (addAlloc res inc).map Prod.fst := by
          rw [hkr1]
          exact hk
        rw [getv_clampRes u hkr]
        by_cases hcl : getv u k < getv (addAlloc res inc) k
        · omega
        · rw [getv_clampSize u _ hk, if_neg hcl] at h0
          have hres_k := hzero k hk h0
          have hinc_k := runMethod_zero_key hm hrm hnd hpos hk h0
          rw [getv_addAlloc inc (by rw [hkeys]; exact hk)] at hcl ⊢
          omega
      have hsum2 : sumv (clampRes u (addAlloc res inc)) +
          clampExcess u (addAlloc res inc) ≤ sumv u + 0 := by
        have hsplit := sumv_clamp_split u (addAlloc res inc)
        have hadd := sumv_addAlloc res inc (by rw [hkeys, hki]) (by rw [hkeys]; exact hnd)
        omega
      by_cases hz2 : clampExcess u (addAlloc res inc) ≤ 0
      · obtain ⟨f2, rfl⟩ : ∃ f2, f = f2 + 1 := ⟨f - 1, by omega⟩
        rw [allocLoop_done hz2]
        rfl
      · have hwit : ∃ x ∈ size, (fun p => decide (p.2 ≠ 0)) x = true ∧
            (fun p => decide (p.2 ≠ 0))
              ((fun s => (s.1, if getv u s.1 < getv (addAlloc res inc) s.1 then 0 else s.2)) x)
              = false := by
          obtain ⟨p, hpmem, hplt⟩ :=
            clampExcess_pos_witness (u := u) (r := addAlloc res inc) (by omega)
          have hpk : p.1 ∈ size.map Prod.fst := by
            rw [← hkr1]
            exact List.mem_map_of_mem Prod.fst hpmem
          have hgv : getv (addAlloc res inc) p.1 = p.2 :=
            getv_eq_of_mem (by rw [hkr1]; exact hnd) hpmem
          have hclk : getv u p.1 < getv (addAlloc res inc) p.1 := by
            rw [hgv]
            exact hplt
          have hsz_ne : getv size p.1 ≠ 0 := by
            intro hz
            have hres_k := hzero p.1 hpk hz
            have hinc_k := runMethod_zero_key hm hrm hnd hpos hpk hz
            rw [getv_addAlloc inc (by rw [hkeys]; exact hpk)] at hclk
            omega
          refine ⟨(p.1, getv size p.1), getv_mem hpk, by simpa using hsz_ne, ?_⟩
          simp only [hclk, if_pos hclk]
          simp
        have hmono : ∀ x ∈ size, (fun p => decide (p.2 ≠ 0))
            ((fun s => (s.1, if getv u s.1 < getv (addAlloc res inc) s.1 then 0 else s.2)) x)
              = true → (fun p => decide (p.2 ≠ 0)) x = true := by
          intro x _ hx
          simp only [decide_eq_true_eq] at hx ⊢
          intro hc
          rw [hc] at hx
          split_ifs at hx <;> simp at hx
        have hdec := countP_map_lt size
            (fun s => (s.1, if getv u s.1 < getv (addAlloc res inc) s.1 then 0 else s.2))
            (fun p => decide (p.2 ≠ 0)) hmono hwit
        have hcnt2 : (clampSize u (addAlloc res inc) size).countP
            (fun p => decide (p.2 ≠ 0)) ≤ μ := by
          rw [clampSize]
          omega
        exact ihμ f (clampSize u (addAlloc res inc) size)
          (clampRes u (addAlloc res inc)) (clampExcess u (addAlloc res inc))
          (by omega) hcnt2 hnd2 hkeys2 hnn2 hset2 hzero2 (clampExcess_nonneg u _)
          (by omega)

lemma allocate_ok_inv {size : SizeMap} {n : ℤ} {uopt : Option Alloc} {initial : ℤ}
    {m : Method} {fuel : ℕ} {a : Alloc} {s2 : SizeMap}
    (hok : allocate size n uopt initial m fuel = some (.ok (a, s2))) :
    ¬(n < 0) ∧ ¬(initial < 0) ∧ ¬(n < initial * size.length) ∧
      allocLoop m (effUnits size n uopt) fuel size
        (size.map (fun p => (p.1, initial))) (n - initial * size.length)
        = some (.ok (a, s2)) := by
  rw [allocate.eq_def] at hok
  split_ifs at hok with h1 h2 h3
  all_goals try exact absurd hok (by simp)
  cases uopt with
  | none => exact ⟨h1, h2, h3, hok⟩
  | some u =>
    dsimp only at hok
    split_ifs at hok with h4 h5
    all_goals try exact absurd hok (by simp)
    exact ⟨h1, h2, h3, hok⟩

/-! Claim theorems. -/

/-- C1: for every size mapping, total n and capacity mapping satisfying the
preconditions of allocate (n nonnegative, initial nonnegative, floor fits,
capacities nonnegative with the same key set as size) and with the sum of
capacities at least n, any allocation returned by allocate sums exactly
to n. -/
theorem C1_sum_invariant (size : SizeMap) (n : ℤ) (u : Alloc) (initial : ℤ)
    (m : Method) (fuel : ℕ) (a : Alloc) (s2 : SizeMap)
    (hnd : (size.map Prod.fst).Nodup)
    (hn : 0 ≤ n) (hinit : 0 ≤ initial) (hfit : initial * size.length ≤ n)
    (hkm : keysMatch size u = true)
    (hunn : ∀ p ∈ u, 0 ≤ p.2)
    (hcap : n ≤ sumv u)
    (hok : allocate size n (some u) initial m fuel = some (.ok (a, s2))) :
    sumv a = n := by
  obtain ⟨h1, h2, h3, hloop⟩ := allocate_ok_inv hok
  have hkeys : (size.map (fun p => (p.1, initial))).map Prod.fst = size.map Prod.fst :=
    keys_mapVal (fun _ _ => initial) size
  have := allocLoop_sumv fuel size _ _ _ _ hloop hkeys hnd (by omega)
  rw [sumv_const] at this
  omega

/-- C1 witness: a concrete run of allocate under the preconditions of C1
whose returned allocation sums to the requested total. -/
theorem C1_witness : sumv [(("a" : String), (1 : ℤ))] = 1 :=
  C1_sum_invariant [("a", 1)] 1 [("a", 5)] 0 Method.lr 2 [("a", 1)] [("a", 1)]
    (by decide) (by decide) (by decide) (by decide) (by decide) (by decide)
    (by decide) (by decide)

/-- C2 counterexample: allocate with initial = 1 and a capacity of 0 for
entity a returns without error an allocation with allocation[a] = 1 above
units[a] = 0, refuting the claimed capacity conformance. -/
theorem C2_counterexample :
    allocate [("a", 1), ("b", 1)] 2 (some [("a", 0), ("b", 5)]) 1 Method.lr 3 =
      some (.ok ([("a", 1), ("b", 1)], [("a", 1), ("b", 1)])) ∧
    ¬(getv [(("a" : String), (1 : ℤ)), ("b", 1)] "a" ≤
        getv [(("a" : String), (0 : ℤ)), ("b", 5)] "a") := by
  decide

/-- C2 amended: for every call of allocate that returns without error, and
in which the floor initial does not exceed any capacity, the returned
allocation satisfies 0 <= allocation[k] <= units[k] (with units[k]
defaulting to n) and allocation[k] >= initial for every entity k. -/
theorem C2_amended (size : SizeMap) (n : ℤ) (uopt : Option Alloc) (initial : ℤ)
    (m : Method) (fuel : ℕ) (a : Alloc) (s2 : SizeMap)
    (hnd : (size.map Prod.fst).Nodup)
    (hlo : ∀ k ∈ size.map Prod.fst, initial ≤ getv (effUnits size n uopt) k)
    (hok : allocate size n uopt initial m fuel = some (.ok (a, s2))) :
    ∀ k ∈ size.map Prod.fst,
      0 ≤ getv a k ∧ getv a k ≤ getv (effUnits size n uopt) k ∧
        initial ≤ getv a k := by
  obtain ⟨h1, h2, h3, hloop⟩ := allocate_ok_inv hok
  have hkeys : (size.map (fun p => (p.1, initial))).map Prod.fst = size.map Prod.fst :=
    keys_mapVal (fun _ _ => initial) size
  have hres : ∀ k ∈ size.map Prod.fst,
      initial ≤ getv (size.map (fun p => (p.1, initial))) k ∧
        getv (size.map (fun p => (p.1, initial))) k ≤ getv (effUnits size n uopt) k := by
    intro k hk
    rw [getv_const initial hk]
    exact ⟨le_refl _, hlo k hk⟩
  have hb := allocLoop_bounds initial fuel size _ _ _ _ hloop hkeys hnd hres hlo
  intro k hk
  obtain ⟨hl, hr⟩ := hb k hk
  exact ⟨by omega, hr, hl⟩

/-- C2 witness: a concrete run of allocate satisfying the amended bounds at
entity a. -/
theorem C2_witness :
    0 ≤ getv [(("a" : String), (1 : ℤ))] "a" ∧
      getv [(("a" : String), (1 : ℤ))] "a" ≤
        getv (effUnits [("a", 1)] 1 (some [("a", 5)])) "a" ∧
      0 ≤ getv [(("a" : String), (1 : ℤ))] "a" :=
  C2_amended [("a", 1)] 1 (some [("a", 5)]) 0 Method.lr 2 [("a", 1)] [("a", 1)]
    (by decide) (by decide) (by decide) "a" (by decide)

/-- C4 counterexample: with insufficient capacities, allocate raises the
all-zeros error from the second rounding call only after zeroing the
caller size mapping, so it neither succeeds nor raises before performing
any work. -/
theorem C4_counterexample :
    allocate [("a", 1)] 2 (some [("a", 1)]) 0 Method.lr 5 =
      some (.error ("size cannot have all zeros", [("a", 0)])) ∧
    [(("a" : String), (0 : ℚ))] ≠ [("a", 1)] := by
  decide

/-- C4 amended: every precondition violation (negative total, negative
floor, infeasible floor, mismatched capacity keys, negative capacity) is
detected eagerly: allocate raises before any work, with the caller size
mapping unchanged.  When capacities are insufficient, the loop may instead
raise later, after mutating the size mapping. -/
theorem C4_amended (size : SizeMap) (n : ℤ) (uopt : Option Alloc) (initial : ℤ)
    (m : Method) (fuel : ℕ)
    (hpre : n < 0 ∨ initial < 0 ∨ n < initial * size.length ∨
      (∃ u, uopt = some u ∧ keysMatch size u = false) ∨
      (∃ u, uopt = some u ∧ u.any (fun p => decide (p.2 < 0)) = true)) :
    ∃ e, allocate size n uopt initial m fuel = some (.error (e, size)) := by
  rw [allocate.eq_def]
  split_ifs with h1 h2 h3
  · exact ⟨_, rfl⟩
  · exact ⟨_, rfl⟩
  · exact ⟨_, rfl⟩
  · cases uopt with
    | none =>
      exfalso
      rcases hpre with h | h | h | ⟨u, hu, _⟩ | ⟨u, hu, _⟩
      · exact h1 h
      · exact h2 h
      · exact h3 h
      · exact Option.noConfusion hu
      · exact Option.noConfusion hu
    | some u =>
      dsimp only
      split_ifs with h4 h5
      · exact ⟨_, rfl⟩
      · exfalso
        rcases hpre with h | h | h | ⟨w, hw, hwm⟩ | ⟨w, hw, hwa⟩
        · exact h1 h
        · exact h2 h
        · exact h3 h
        · injection hw with hw
          subst hw
          rw [h4] at hwm
          exact Bool.noConfusion hwm
        · injection hw with hw
          subst hw
          exact h5 hwa
      · exact ⟨_, rfl⟩

/-- C4 witness: a negative total is rejected eagerly with the size mapping
unchanged. -/
theorem C4_witness :
    ∃ e, allocate [("a", 1)] (-1) none 0 Method.lr 1 =
      some (.error (e, [("a", 1)])) :=
  C4_amended [("a", 1)] (-1) none 0 Method.lr 1 (Or.inl (by decide))

/-- C10: whenever allocate returns, the final size mapping has the same
keys as the input, and each entry either keeps its original value or has
been zeroed with the entity allocation clamped to its capacity, so the
driver is the only mutator and only zeroes saturated entities. -/
theorem C10_size_mutation (size : SizeMap) (n : ℤ) (u : Alloc) (initial : ℤ)
    (m : Method) (fuel : ℕ) (a : Alloc) (s2 : SizeMap)
    (hnd : (size.map Prod.fst).Nodup)
    (hok : allocate size n (some u) initial m fuel = some (.ok (a, s2))) :
    s2.map Prod.fst = size.map Prod.fst ∧
      ∀ k ∈ size.map Prod.fst,
        getv s2 k = getv size k ∨ (getv s2 k = 0 ∧ getv a k = getv u k) := by
  obtain ⟨h1, h2, h3, hloop⟩ := allocate_ok_inv hok
  have hkeys : (size.map (fun p => (p.1, initial))).map Prod.fst = size.map Prod.fst :=
    keys_mapVal (fun _ _ => initial) size
  exact allocLoop_frame size fuel size _ _ _ _ hloop hkeys hnd rfl
    (fun k _ => Or.inl rfl)

/-- C10 witness: the concrete capacity scenario of the test suite, where b
and c are clamped to their capacities and zeroed while a keeps its size. -/
theorem C10_witness :
    ([(("a" : String), (1 : ℚ)), ("b", 0), ("c", 0)]).map Prod.fst =
        ([(("a" : String), (1 : ℚ)), ("b", 20), ("c", 300)]).map Prod.fst ∧
      ∀ k ∈ ([(("a" : String), (1 : ℚ)), ("b", 20), ("c", 300)]).map Prod.fst,
        getv [(("a" : String), (1 : ℚ)), ("b", 0), ("c", 0)] k =
            getv [(("a" : String), (1 : ℚ)), ("b", 20), ("c", 300)] k ∨
          (getv [(("a" : String), (1 : ℚ)), ("b", 0), ("c", 0)] k = 0 ∧
            getv [(("a" : String), (1 : ℤ)), ("b", 2), ("c", 3)] k =
              getv [(("a" : String), (6 : ℤ)), ("b", 2), ("c", 3)] k) :=
  C10_size_mutation [("a", 1), ("b", 20), ("c", 300)] 6 [("a", 6), ("b", 2), ("c", 3)]
    0 Method.lr 4 [("a", 1), ("b", 2), ("c", 3)] [("a", 1), ("b", 0), ("c", 0)]
    (by decide) (by decide)

/-- C3 counterexample: highest_average performs no all-zero check: with
every size zero it succeeds, awarding all units to the first entity by
tie-break order, instead of failing. -/
theorem C3_counterexample :
    highest_average [("a", 0)] 1 dhondt = .ok [("a", 1)] := by
  decide

/-- C3 amended: largest_remainder fails with the all-zeros InvalidArgument
at entry whenever all entity sizes are zero (and n and the sizes pass the
earlier checks); highest_average performs no such check. -/
theorem C3_amended (size : SizeMap) (n : ℤ) (hn : 0 ≤ n)
    (hall : ∀ p ∈ size, p.2 = 0) :
    largest_remainder size n = .error "size cannot have all zeros" := by
  have h2 : ¬(size.any (fun p => decide (p.2 < 0)) = true) := by
    intro hc
    obtain ⟨p, hp, hd⟩ := List.any_eq_true.mp hc
    rw [decide_eq_true_eq] at hd
    rw [hall p hp] at hd
    exact lt_irrefl 0 hd
  have h3 : sumq size = 0 := by
    rw [sumq_eq, sumv]
    apply List.sum_eq_zero
    intro x hx
    obtain ⟨p, hp, rfl⟩ := List.mem_map.mp hx
    exact hall p hp
  rw [largest_remainder, if_neg (not_lt.mpr hn), if_neg h2, if_pos h3]

/-- C3 witness: the all-zero check of largest_remainder fires on a concrete
all-zero mapping. -/
theorem C3_witness :
    largest_remainder [("a", 0)] 1 = .error "size cannot have all zeros" :=
  C3_amended [("a", 0)] 1 (by decide) (by decide)

/-- C5 counterexample: with highest averages and capacities whose sum is
below the requested total, the clamping loop never terminates: far more
iterations than the one entity of the input leave the loop still running,
refuting the claimed bound. -/
theorem C5_counterexample :
    allocate [("a", 1)] 2 (some [("a", 1)]) 0 (Method.ha dhondt) 100 = none := by
  decide

/-- C5 amended: when every size is positive, the capacities are nonnegative
with the same key set and sum at least n, and the rounding method is
largest_remainder or highest_average with the default divisor, the
capacity-clamping loop terminates within one iteration per entity: fuel
|size| + 1 suffices, because each iteration that does not finish saturates
at least one additional entity. -/
theorem C5_amended (size : SizeMap) (n : ℤ) (u : Alloc) (initial : ℤ) (m : Method)
    (hm : m = Method.lr ∨ m = Method.ha dhondt)
    (hnd : (size.map Prod.fst).Nodup) (hund : (u.map Prod.fst).Nodup)
    (hn : 0 ≤ n) (hinit : 0 ≤ initial) (hfit : initial * size.length ≤ n)
    (hkm : keysMatch size u = true)
    (hunn : ∀ p ∈ u, 0 ≤ p.2)
    (hpos : ∀ p ∈ size, 0 < p.2)
    (hcap : n ≤ sumv u) :
    (allocate size n (some u) initial m (size.length + 1)).isSome = true := by
  have h5 : ¬(u.any (fun p => decide (p.2 < 0)) = true) := by
    intro hc
    obtain ⟨p, hp, hd⟩ := List.any_eq_true.mp hc
    rw [decide_eq_true_eq] at hd
    exact absurd hd (not_lt.mpr (hunn p hp))
  rw [allocate_eq_loop (not_lt.mpr hn) (not_lt.mpr hinit) (not_lt.mpr hfit) hkm h5]
  apply allocLoop_isSome hm hund size.length (size.length + 1) size _ _ (le_refl _)
  · exact List.countP_le_length _
  · exact hnd
  · exact keys_mapVal (fun _ _ => initial) size
  · exact fun p hp => le_of_lt (hpos p hp)
  · exact keysMatch_iff.mp hkm
  · intro k hk h0
    exfalso
    have := hpos (k, getv size k) (getv_mem hk)
    rw [h0] at this
    exact lt_irrefl 0 this
  · omega
  · rw [sumv_const]
    omega

/-- C5 witness: a concrete feasible run that terminates within the fuel
bound of one iteration per entity. -/
theorem C5_witness :
    (allocate [("a", 1)] 1 (some [("a", 5)]) 0 Method.lr
      (List.length [(("a" : String), (1 : ℚ))] + 1)).isSome = true :=
  C5_amended [("a", 1)] 1 [("a", 5)] 0 Method.lr (Or.inl rfl) (by decide) (by decide)
    (by decide) (by decide) (by decide) (by decide) (by decide) (by decide) (by decide)

/-- C6 counterexample: the Adams divisor is 0 at count 0, not positive, so
the divisor catalog does not satisfy divisor(a) > 0 for all nonnegative a. -/
theorem C6_counterexample :
    (divisorFun "Adams").toOption.map (fun f => f 0) = some 0 := by
  have h : lowerName "Adams" = "adams" := by decide
  rw [divisorFun, if_pos h]
  simp [Except.toOption]

/-- C6 amended: every function of the divisor catalog is positive at every
count a >= 1; at a = 0 the Adams, Dean and Huntington-Hill divisors are 0,
so the division in highest_average is safe only from count 1 on for those
methods. -/
theorem C6_amended (name : String) (f : ℤ → ℝ) (h : divisorFun name = .ok f)
    (a : ℤ) (ha : 1 ≤ a) : 0 < f a := by
  have har : (1 : ℝ) ≤ (a : ℝ) := by exact_mod_cast ha
  have hapos : (0 : ℝ) < (a : ℝ) := by linarith
  rw [divisorFun] at h
  split_ifs at h
  all_goals try exact (Except.noConfusion h)
  all_goals injection h with hf
  all_goals rw [← hf]
  · exact hapos
  · have h1 : (0 : ℝ) < (a : ℝ) + 1 := by linarith
    have h2 : (0 : ℝ) < (a : ℝ) + 0.5 := by linarith
    positivity
  · exact Real.sqrt_pos.mpr (by nlinarith)
  · norm_num
    linarith
  · norm_num
    linarith
  · norm_num
    linarith
  · norm_num
    linarith

/-- C6 witness: the Imperiali divisor is positive at count 1. -/
theorem C6_witness : 0 < (fun x : ℤ => (x : ℝ) + 2) 1 :=
  C6_amended "imperiali" (fun x => (x : ℝ) + 2)
    (by
      rw [divisorFun, if_neg (by decide), if_neg (by decide), if_neg (by decide),
        if_neg (by decide), if_neg (by decide), if_pos (by decide)])
    1 le_rfl

/-- C7: the highest averages method is house monotone: for every size
mapping with no negative entries, every nonnegative n, every divisor
function and every entity, the allocation for n + 1 units is at least the
allocation for n units. -/
theorem C7_ha_monotone (size : SizeMap) (n : ℤ) (d : ℤ → ℚ) (k : String)
    (hnn : ∀ p ∈ size, 0 ≤ p.2) (hn : 0 ≤ n) (a b : Alloc)
    (ha : highest_average size (n + 1) d = .ok a)
    (hb : highest_average size n d = .ok b) :
    getv b k ≤ getv a k := by
  rw [highest_average_eq_run size (n + 1) d (by omega) hnn] at ha
  rw [highest_average_eq_run size n d hn hnn] at hb
  have ht : (n + 1).toNat = n.toNat + 1 := by omega
  rw [ht] at ha
  exact haLoop_mono n.toNat _ _ _ ha hb k

/-- C7 witness: awarding one more unit to a one-entity mapping does not
decrease the entity allocation. -/
theorem C7_witness :
    getv [(("a" : String), (0 : ℤ))] "a" ≤ getv [(("a" : String), (1 : ℤ))] "a" :=
  C7_ha_monotone [("a", 1)] 0 (fun _ => 1) "a" (by decide) le_rfl
    [("a", 1)] [("a", 0)] (by decide) (by decide)

/-- C8: for nonnegative sizes not all zero, each entity allocation of
largest_remainder differs from the exact proportional share by less than 1
in absolute value, and an entity of zero size receives zero units. -/
theorem C8_lr_bounded (size : SizeMap) (n : ℤ) (a : Alloc) (k : String)
    (hnd : (size.map Prod.fst).Nodup)
    (hn : 0 ≤ n) (hnn : ∀ p ∈ size, 0 ≤ p.2)
    (hnz : ∃ p ∈ size, p.2 ≠ 0)
    (hok : largest_remainder size n = .ok a)
    (hk : k ∈ size.map Prod.fst) :
    |((getv a k : ℤ) : ℚ) - (n : ℚ) * getv size k / sumv size| < 1 ∧
      (getv size k = 0 → getv a k = 0) := by
  obtain ⟨ha, _, _, hS⟩ := largest_remainder_ok hok
  subst ha
  constructor
  · rw [lrResult_getv n hk]
    have hfl := Int.floor_le (lrShare n (sumv size) (getv size k))
    have hfl2 := Int.lt_floor_add_one (lrShare n (sumv size) (getv size k))
    rw [← lrShare_eq]
    by_cases hmem : k ∈ lrAddOne size n (sumv size)
    · have hneg := lrAddOne_rem_neg hnd hS hmem
      rw [lrRem_getv n _ hk] at hneg
      rw [if_pos hmem]
      rw [abs_lt]
      constructor <;> push_cast <;> linarith
    · rw [if_neg hmem]
      rw [abs_lt]
      constructor <;> push_cast <;> linarith
  · intro h0
    exact lrResult_zero hnd hS hk h0

/-- C8 witness: with two equal sizes and one unit, entity a receives one
unit, within one of its exact share of a half. -/
theorem C8_witness :
    |((getv [(("a" : String), (1 : ℤ)), ("b", 0)] "a" : ℤ) : ℚ) -
        (1 : ℚ) * getv [(("a" : String), (1 : ℚ)), ("b", 1)] "a" /
          sumv [(("a" : String), (1 : ℚ)), ("b", 1)]| < 1 ∧
      (getv [(("a" : String), (1 : ℚ)), ("b", 1)] "a" = 0 →
        getv [(("a" : String), (1 : ℤ)), ("b", 0)] "a" = 0) :=
  C8_lr_bounded [("a", 1), ("b", 1)] 1 [("a", 1), ("b", 0)] "a"
    (by decide) (by decide) (by decide) (by decide) (by decide) (by decide)

/-- C9: the Alabama paradox scenario is reproduced exactly: with sizes
6/14, 6/14, 2/14 the largest remainder method gives (4, 4, 2) for 10 units
and (5, 5, 1) for 11 units, so entity c decreases when the total grows. -/
theorem C9_alabama_paradox :
    largest_remainder [("a", mkRat 6 14), ("b", mkRat 6 14), ("c", mkRat 2 14)] 10 =
      .ok [("a", 4), ("b", 4), ("c", 2)] ∧
    largest_remainder [("a", mkRat 6 14), ("b", mkRat 6 14), ("c", mkRat 2 14)] 11 =
      .ok [("a", 5), ("b", 5), ("c", 1)] ∧
    getv [(("a" : String), (5 : ℤ)), ("b", 5), ("c", 1)] "c" <
      getv [(("a" : String), (4 : ℤ)), ("b", 4), ("c", 2)] "c" := by
  decide
